import Mathlib

/-!
Verification of the `compress-json-rs` compression engine against its
specification.  The Rust sources (`src/number.rs`, `src/encode.rs`,
`src/memory.rs`, `src/core.rs`, `src/config.rs`) are shallowly embedded
below: Rust `String` values become `List Char`, `usize` arithmetic is
modelled as `Nat` with explicit reduction modulo `2 ^ 64` where the source
can overflow, `HashMap` caches become association lists (the source only
ever inserts and looks up whole keys), and functions that can panic return
`Except`/`Option`.  `serde_json::Value` is embedded as `JsonValue`; its
integer payloads (`u64`/`i64`) become `Int`, and the `f64` conversion the
source performs on every number (`Number::as_f64`, `format!`, `parse`) is
embedded exactly for integer-valued floats: `rnd53` is IEEE-754
round-to-nearest-even at 53 significant bits, and `shortestDec` is the
shortest-round-trip decimal value that Rust's `Display` prints for an
integral `f64`.  Non-integral floats never arise from the integer inputs
modelled here; a float produced by the decoder's fallback branch is kept
symbolically as its decimal text (`JsonValue.floatNum`).
-/

namespace CompressJson

/-- Rust `&str`/`String`, embedded as its list of characters. -/
abbrev Str := List Char

/-- `usize` modulus: the source runs on 64-bit targets. -/
def U64 : Nat := 2 ^ 64

/-! ## Key codec (`src/number.rs`)

`ITO_S` is the radix-62 alphabet; `s_to_int` and `int_to_s` convert between
keys and indices.  In the source `acc += idx * pow; pow *= N` are `usize`
operations, which wrap modulo `2 ^ 64` (release-profile semantics), so the
embedding reduces each step modulo `U64`. -/

/-- The 62-character alphabet `0-9A-Za-z` from `number.rs`. -/
def ITO_S : Str :=
  ['0','1','2','3','4','5','6','7','8','9',
   'A','B','C','D','E','F','G','H','I','J','K','L','M',
   'N','O','P','Q','R','S','T','U','V','W','X','Y','Z',
   'a','b','c','d','e','f','g','h','i','j','k','l','m',
   'n','o','p','q','r','s','t','u','v','w','x','y','z']

/-- `ITO_S.find(c)`: index of `c` in the alphabet (`None` when absent;
the source would panic there). -/
def charIdx? (c : Char) : Option Nat :=
  ITO_S.findIdx? (· = c)

/-- The `i`-th alphabet character (`ITO_S.chars().nth(i)`), defaulting
to `'0'` out of range (the source never indexes out of range). -/
def alphaChar (i : Nat) : Char := ITO_S.getD i '0'

/-- The loop of `s_to_int`, over the reversed character list, carrying
`acc` and `pow` with wrapping `usize` arithmetic. -/
def s_to_int_core : List Char → Nat → Nat → Option Nat
  | [], acc, _ => some acc
  | c :: cs, acc, pow =>
    match charIdx? c with
    | none => none
    | some idx => s_to_int_core cs ((acc + idx * pow) % U64) ((pow * 62) % U64)

/-- `s_to_int` from `number.rs`: radix-62 decode (most significant digit
first).  `none` models the source's panic on a character outside the
alphabet. -/
def s_to_int? (s : Str) : Option Nat :=
  s_to_int_core s.reverse 0 1

/-- The digit-extraction loop of `int_to_s`, producing least-significant
digit first.  The source's `while val != 0` loop is given the explicit
structural fuel `f` (callers pass `f = v`, which is enough since
`v / 62 < v`). -/
def int_to_s_core : Nat → Nat → List Char
  | 0, _ => []
  | _ + 1, 0 => []
  | f + 1, v + 1 => alphaChar ((v + 1) % 62) :: int_to_s_core f ((v + 1) / 62)

/-- `int_to_s` from `number.rs`: radix-62 encode; `0` maps to `"0"`. -/
def int_to_s (n : Nat) : Str :=
  if n = 0 then ['0'] else (int_to_s_core n n).reverse

/-! ## Decimal digits and integer parsing -/

/-- Decimal digit character for `d < 10`. -/
def digitChar (d : Nat) : Char := Char.ofNat (48 + d)

/-- Decimal digit loop, least-significant first, with structural fuel
(callers pass `f = n`). -/
def natDigitsCore : Nat → Nat → List Char
  | 0, _ => []
  | _ + 1, 0 => []
  | f + 1, n + 1 => digitChar ((n + 1) % 10) :: natDigitsCore f ((n + 1) / 10)

/-- Decimal representation of a natural number, as Rust prints it. -/
def natDigits (n : Nat) : Str :=
  if n = 0 then ['0'] else (natDigitsCore n n).reverse

/-- Value of a decimal digit character. -/
def digitVal? (c : Char) : Option Nat :=
  if '0' ≤ c ∧ c ≤ '9' then some (c.toNat - 48) else none

/-- Accumulating decimal parse, most significant digit first (`None` on a
non-digit, as `from_str` errors there). -/
def parseNatCore : List Char → Nat → Option Nat
  | [], acc => some acc
  | c :: cs, acc =>
    match digitVal? c with
    | none => none
    | some d => parseNatCore cs (acc * 10 + d)

/-- Parse an unsigned decimal numeral (no sign); empty input is an error. -/
def parseNat? (s : Str) : Option Nat :=
  if s = [] then none else parseNatCore s 0

/-- Rust `str::parse::<i64>`: optional sign, decimal digits, checked
range `[-2^63, 2^63)` (overflow is an `Err`, not a wrap). -/
def parseI64? (s : Str) : Option Int :=
  match s with
  | [] => none
  | c :: rest =>
    if c = '-' then
      (parseNat? rest).bind fun n => if n ≤ 2 ^ 63 then some (-(n : Int)) else none
    else if c = '+' then
      (parseNat? rest).bind fun n => if n < 2 ^ 63 then some (n : Int) else none
    else
      (parseNat? (c :: rest)).bind fun n => if n < 2 ^ 63 then some (n : Int) else none

/-- Rust `str::parse::<u64>`: optional `+`, decimal digits, checked range. -/
def parseU64? (s : Str) : Option Nat :=
  match s with
  | [] => none
  | c :: rest =>
    if c = '-' then none
    else if c = '+' then
      (parseNat? rest).bind fun n => if n < 2 ^ 64 then some n else none
    else
      (parseNat? (c :: rest)).bind fun n => if n < 2 ^ 64 then some n else none

/-! ## The `f64` model for integer values

Every number reaching `encode_num` in the source is `n.as_f64()` of an
`i64`/`u64`, hence an integral double.  `bitLen`/`rnd53n`/`rnd53` model the
conversion (round to nearest, ties to even, at 53 significant bits) and
`shortestDec` models what `format!("{num}")` prints for such a value:
the shortest decimal that parses back to the same double, which for an
integral double is an integer.  The digit-count search is capped at 25,
which is exact for every value below `2 ^ 136` (the rounding interval of a
double only contains a multiple of `10 ^ 25` once its width `2 ^ (e2+1)`
exceeds `10 ^ 25`); all values reachable from 64-bit integers are below
`2 ^ 64`. -/

/-- Number of binary digits (`log2 + 1`) for `0 < n < 2 ^ 127`; `0` for
`n = 0`.  (The search bound 127 covers every value reachable from the
64-bit integers of the source.) -/
def bitLen (n : Nat) : Nat :=
  if n = 0 then 0 else Nat.findGreatest (fun k => 2 ^ k ≤ n) 127 + 1

/-- Round a natural number to 53 significant bits, ties to even: the exact
value of `n as f64` for `n < 2 ^ 128`. -/
def rnd53n (n : Nat) : Nat :=
  let k := bitLen n
  if k ≤ 53 then n
  else
    let u := 2 ^ (k - 53)
    let q := n / u
    let r := n % u
    if 2 * r > u ∨ (2 * r = u ∧ q % 2 = 1) then (q + 1) * u else q * u

/-- The exact value of an integer converted to `f64` (`Number::as_f64`). -/
def rnd53 (v : Int) : Int :=
  if v < 0 then -(rnd53n v.natAbs : Int) else (rnd53n v.natAbs : Int)

/-- The integer printed by Rust's `Display` for the integral double of
value `v`: the shortest (then nearest) decimal inside the rounding
interval of `v`. -/
def shortestDec (v : Nat) : Nat :=
  if v ≤ 2 ^ 53 then v
  else
    let e2 := bitLen v - 53
    let m := v / 2 ^ e2
    let hu := 2 ^ (e2 - 1)
    let hd := if m = 2 ^ 52 then 2 ^ (e2 - 1) / 2 else 2 ^ (e2 - 1)
    let lo := if m % 2 = 0 then v - hd else v - hd + 1
    let hi := if m % 2 = 0 then v + hu else v + hu - 1
    let s := 10 ^ Nat.findGreatest (fun j => lo ≤ hi / 10 ^ j * 10 ^ j) 25
    let a := v / s * s
    let b := a + s
    if b ≤ hi ∧ (v - a > b - v ∨ a < lo) then b else a

/-- Decimal text Rust prints for the integral double of value `v`
(`format!("{num}")`, sign included). -/
def fmtF64i (v : Int) : Str :=
  if v < 0 then '-' :: natDigits (shortestDec v.natAbs)
  else natDigits (shortestDec v.natAbs)

/-! ## Splitting and joining on a separator character -/

/-- Rust `str::split(c)`: always returns at least one (possibly empty)
part. -/
def splitC (c : Char) : Str → List Str
  | [] => [[]]
  | a :: rest =>
    match splitC c rest with
    | [] => [[a]]
    | r :: rs => if a = c then [] :: r :: rs else (a :: r) :: rs

/-- Rust `[String]::join(c)`. -/
def joinC (c : Char) : List Str → Str
  | [] => []
  | [p] => p
  | p :: ps => p ++ c :: joinC c ps

/-! ## Configuration (`src/config.rs`) -/

/-- Compression options, all compile-time constants in the source. -/
structure Config where
  sort_key : Bool
  preserve_nan : Bool
  error_on_nan : Bool
  preserve_infinite : Bool
  error_on_infinite : Bool
deriving DecidableEq

/-- The fixed `CONFIG` constant: every option is `false`. -/
def CONFIG : Config :=
  { sort_key := false, preserve_nan := false, error_on_nan := false,
    preserve_infinite := false, error_on_infinite := false }

/-! ## Value encoder / decoder (`src/encode.rs`) -/

/-- `encode_bool`: `"b|T"` / `"b|F"`. -/
def encode_bool (b : Bool) : Str :=
  if b then ['b','|','T'] else ['b','|','F']

/-- `decode_bool`: the two known forms, empty ↦ `false`, any other
non-empty string ↦ `true`. -/
def decode_bool (s : Str) : Bool :=
  if s = ['b','|','T'] then true
  else if s = ['b','|','F'] then false
  else !s.isEmpty

/-- The reserved structural prefixes checked by `encode_str`, in source
order. -/
def reservedTags : List Str :=
  [['b','|'], ['o','|'], ['n','|'], ['N','|'], ['a','|'], ['s','|']]

/-- `encode_str`: escape with `"s|"` when the string starts with a
reserved tag, else return it unchanged. -/
def encode_str (s : Str) : Str :=
  if reservedTags.any (·.isPrefixOf s) then 's' :: '|' :: s else s

/-- `decode_str`: strip one leading `"s|"` if present. -/
def decode_str (s : Str) : Str :=
  if ['s','|'].isPrefixOf s then s.drop 2 else s

/-- `encode_num`: `format!("n|{num}")` for the integral double of value
`v` (the only doubles the compressor produces from integer inputs). -/
def encode_num (v : Int) : Str :=
  'n' :: '|' :: fmtF64i v

/-- ASCII decimal digit test. -/
def isDig (c : Char) : Bool := '0' ≤ c && c ≤ '9'

/-- Exponent suffix of Rust's float grammar (empty, or `e`/`E`, optional
sign, at least one digit). -/
def validExpPart : Str → Bool
  | [] => true
  | c :: r =>
    if c = 'e' ∨ c = 'E' then
      match r with
      | '+' :: d => !d.isEmpty && d.all isDig
      | '-' :: d => !d.isEmpty && d.all isDig
      | d => !d.isEmpty && d.all isDig
    else false

/-- Rust's finite-decimal `f64` grammar: optional sign, digits with an
optional fraction (at least one digit overall), optional exponent.  The
`inf`/`NaN` spellings parse in Rust but produce a non-finite double, which
`Number::from_f64(..).expect(..)` then rejects with a panic, so they are
treated as invalid here.  (A finite-looking text whose magnitude overflows
to infinity is not distinguished; no claim depends on that corner.) -/
def validF64Text (s : Str) : Bool :=
  let s1 := match s with | '+' :: r => r | '-' :: r => r | r => r
  let ip := s1.takeWhile isDig
  let r1 := s1.dropWhile isDig
  match r1 with
  | '.' :: r =>
    let fp := r.takeWhile isDig
    let r2 := r.dropWhile isDig
    (!ip.isEmpty || !fp.isEmpty) && validExpPart r2
  | _ => !ip.isEmpty && validExpPart r1

/-- Does a number text contain a fraction or exponent marker
(`'.'`, `'e'`, `'E'`)? -/
def hasMarker (s : Str) : Bool :=
  s.any fun c => c == '.' || c == 'e' || c == 'E'

/-! ## The JSON value type (`serde_json::Value`)

Integer numbers (`PosInt`/`NegInt`, which never overlap: `From<i64>`
builds `NegInt` only for negative inputs) are merged into `num : Int`.
A float produced by the decoder's floating-point fallback is kept as its
decimal text in `floatNum`; general float semantics are outside this
embedding and no claim below depends on them. -/

inductive JsonValue where
  | null : JsonValue
  | bool (b : Bool) : JsonValue
  | num (n : Int) : JsonValue
  | floatNum (s : Str) : JsonValue
  | str (s : Str) : JsonValue
  | arr (xs : List JsonValue) : JsonValue
  | obj (kvs : List (Str × JsonValue)) : JsonValue

mutual

/-- Boolean equality on values (the deriving handler does not support the
nested occurrences). -/
def beqV : JsonValue → JsonValue → Bool
  | .null, .null => true
  | .bool a, .bool b => a == b
  | .num a, .num b => a == b
  | .floatNum a, .floatNum b => a == b
  | .str a, .str b => a == b
  | .arr xs, .arr ys => beqVL xs ys
  | .obj xs, .obj ys => beqVKV xs ys
  | _, _ => false

/-- Boolean equality on value lists. -/
def beqVL : List JsonValue → List JsonValue → Bool
  | [], [] => true
  | x :: xs, y :: ys => beqV x y && beqVL xs ys
  | _, _ => false

/-- Boolean equality on key-value lists. -/
def beqVKV : List (Str × JsonValue) → List (Str × JsonValue) → Bool
  | [], [] => true
  | (k, v) :: xs, (l, w) :: ys => k == l && beqV v w && beqVKV xs ys
  | _, _ => false

end

mutual

theorem beqV_iff : ∀ a b, beqV a b = true ↔ a = b
  | .null, b => by cases b <;> simp [beqV]
  | .bool a, b => by cases b <;> simp [beqV]
  | .num a, b => by cases b <;> simp [beqV]
  | .floatNum a, b => by cases b <;> simp [beqV]
  | .str a, b => by cases b <;> simp [beqV]
  | .arr xs, b => by
    cases b <;> simp [beqV]
    exact beqVL_iff xs _
  | .obj xs, b => by
    cases b <;> simp [beqV]
    exact beqVKV_iff xs _

theorem beqVL_iff : ∀ as bs, beqVL as bs = true ↔ as = bs
  | [], bs => by cases bs <;> simp [beqVL]
  | a :: as, bs => by
    cases bs <;> simp [beqVL]
    rw [beqV_iff, beqVL_iff]

theorem beqVKV_iff : ∀ as bs, beqVKV as bs = true ↔ as = bs
  | [], bs => by cases bs <;> simp [beqVKV]
  | (k, v) :: as, bs => by
    cases bs with
    | nil => simp [beqVKV]
    | cons b bs =>
      obtain ⟨l, w⟩ := b
      simp only [beqVKV, Bool.and_eq_true, beq_iff_eq, beqV_iff, beqVKV_iff,
        List.cons.injEq, Prod.mk.injEq, and_assoc]

end

instance : DecidableEq JsonValue := fun a b =>
  decidable_of_iff _ (beqV_iff a b)

instance : Inhabited JsonValue := ⟨.null⟩

instance {ε α : Type} [DecidableEq ε] [DecidableEq α] :
    DecidableEq (Except ε α) := fun a b =>
  match a, b with
  | .error e, .error f =>
    if h : e = f then .isTrue (by rw [h]) else .isFalse (by simp [h])
  | .ok x, .ok y =>
    if h : x = y then .isTrue (by rw [h]) else .isFalse (by simp [h])
  | .error _, .ok _ => .isFalse (by simp)
  | .ok _, .error _ => .isFalse (by simp)

/-- Node-count measure used for the `usize`-range bookkeeping; every
`get_value_key` insertion during `add_value o` is accounted against
`size o`. -/
def size : JsonValue → Nat
  | .null | .bool _ | .num _ | .floatNum _ | .str _ => 1
  | .arr xs => 2 + sizeL xs
  | .obj kvs => 2 + kvs.length + sizeKV kvs
where
  sizeL : List JsonValue → Nat
    | [] => 0
    | x :: xs => size x + sizeL xs
  sizeKV : List (Str × JsonValue) → Nat
    | [] => 0
    | kv :: kvs => 1 + size kv.2 + sizeKV kvs

/-! ## Memory (`src/memory.rs`) -/

/-- The compression store: value list, the two dedup caches (association
lists standing for the source's `HashMap`s), and the key counter. -/
structure Memory where
  store : List Str
  value_cache : List (Str × Str)
  schema_cache : List (Str × Str)
  key_count : Nat

/-- `make_memory`: everything empty. -/
def make_memory : Memory :=
  { store := [], value_cache := [], schema_cache := [], key_count := 0 }

/-- `mem_to_values`: the store in key order. -/
def mem_to_values (mem : Memory) : List Str := mem.store

/-- `get_value_key`: the single dedup choke point.  On a cache hit the
cached key is returned and nothing changes; otherwise the value is
appended to the store under the key `int_to_s key_count`. -/
def get_value_key (mem : Memory) (value : Str) : Str × Memory :=
  match mem.value_cache.lookup value with
  | some key => (key, mem)
  | none =>
    let id := mem.key_count
    let key := int_to_s id
    (key, { mem with key_count := id + 1,
                     store := mem.store ++ [value],
                     value_cache := (value, key) :: mem.value_cache })

/-- Lexicographic order on strings (Rust `String` ordering; UTF-8 byte
order coincides with scalar-value order). -/
def strLe : Str → Str → Bool
  | [], _ => true
  | _ :: _, [] => false
  | a :: as, b :: bs => if a = b then strLe as bs else decide (a < b)

/-- Insertion sort with `strLe` (models `Vec::sort` on the schema keys;
only reachable when `CONFIG.sort_key` is set, which it is not). -/
def sortKeys : List Str → List Str
  | [] => []
  | k :: ks => insertKey k (sortKeys ks)
where
  insertKey (k : Str) : List Str → List Str
    | [] => [k]
    | x :: xs => if strLe k x then k :: x :: xs else x :: insertKey k xs

/-- Interning of the schema's array-of-strings value.  This is exactly
what `add_value` does on `Value::Array` of strings — each element is a
string leaf, so the recursion bottoms out immediately — written as a
first-order fold so that `get_schema` needs no recursion into
`add_value`; the lemma `add_value_str_arr` below proves it equal to
`add_value` on `.arr (ks.map .str)`. -/
def intern_str_arr (mem : Memory) (ks : List Str) : Str × Memory :=
  let (acc, mem') := go mem ks
  get_value_key mem' (if 'a' :: acc = ['a'] then ['a','|'] else 'a' :: acc)
where
  go (mem : Memory) : List Str → Str × Memory
    | [] => ([], mem)
    | k :: rest =>
      let (key, mem1) := get_value_key mem (encode_str k)
      let (acc, mem2) := go mem1 rest
      ('|' :: key ++ acc, mem2)

/-- `get_schema`: canonicalize the key list (sorted only under
`CONFIG.sort_key`), join with `","` for the cache lookup, and on a miss
intern the canonicalized list as an ordinary array-of-strings value. -/
def get_schema (mem : Memory) (keys : List Str) : Str × Memory :=
  let schema_keys := if CONFIG.sort_key then sortKeys keys else keys
  let schema := joinC ',' schema_keys
  match mem.schema_cache.lookup schema with
  | some key => (key, mem)
  | none =>
    let (key_id, mem1) := intern_str_arr mem schema_keys
    (key_id, { mem1 with schema_cache := (schema, key_id) :: mem1.schema_cache })

mutual

/-- `add_value`: recursively intern a JSON value, returning its key.
Null interns nothing and yields the empty key.  On numbers the source
first converts to `f64` (`rnd53` here); the NaN/infinity early returns are
unreachable for integer payloads, whose doubles are always finite, so only
the `encode_num` path remains.  A symbolic `floatNum` re-emits its own
decimal text (its `Display` round-trips); no theorem depends on it. -/
def add_value (mem : Memory) : JsonValue → Str × Memory
  | .null => ([], mem)
  | .bool b => get_value_key mem (encode_bool b)
  | .num n => get_value_key mem (encode_num (rnd53 n))
  | .floatNum s => get_value_key mem ('n' :: '|' :: s)
  | .str s => get_value_key mem (encode_str s)
  | .arr xs =>
    let (acc, mem') := add_elems mem xs
    get_value_key mem' (if 'a' :: acc = ['a'] then ['a','|'] else 'a' :: acc)
  | .obj kvs =>
    if kvs.isEmpty then get_value_key mem ['o','|']
    else
      let (key_id, mem1) := get_schema mem (kvs.map (·.1))
      let (acc, mem2) := add_vals mem1 kvs
      get_value_key mem2 ('o' :: '|' :: key_id ++ acc)

/-- The array loop of `add_value`: null elements become the `"_"`
placeholder without touching the store; the accumulator collects
`"|" ++ key` per element. -/
def add_elems (mem : Memory) : List JsonValue → Str × Memory
  | [] => ([], mem)
  | v :: vs =>
    let (key, mem1) :=
      if v = .null then (['_'], mem) else add_value mem v
    let (acc, mem2) := add_elems mem1 vs
    ('|' :: key ++ acc, mem2)

/-- The object loop of `add_value`: each property's value is interned
(null values yield the empty key).  The source iterates `keys` and indexes
the map, which for a map (no duplicate keys) visits exactly the pairs in
iteration order. -/
def add_vals (mem : Memory) : List (Str × JsonValue) → Str × Memory
  | [] => ([], mem)
  | kv :: kvs =>
    let (key, mem1) := add_value mem kv.2
    let (acc, mem2) := add_vals mem1 kvs
    ('|' :: key ++ acc, mem2)

end

/-- `compress` (`src/core.rs`): fresh memory, intern the root, extract the
store. -/
def compress (o : JsonValue) : List Str × Str :=
  let mem := make_memory
  let (root, mem') := add_value mem o
  (mem_to_values mem', root)

/-! ## Decoder (`src/core.rs`) -/

/-- Decode failures; each variant models a `panic!`/`expect` in the
source, plus `fuel` for exhaustion of the recursion bound (the source
recurses unboundedly and would overflow the stack on cyclic references). -/
inductive DecErr where
  | fuel
  | invalidKey
  | indexOOB
  | invalidKeys
  | keysTooShort
  | invalidSpecial
  | invalidNumber
deriving DecidableEq

/-- Schema extraction in `decode_object`: a bare string is a one-element
key list, an array must consist of strings, anything else panics. -/
def objKeys : JsonValue → Except DecErr (List Str)
  | .str k => .ok [k]
  | .arr a =>
    match strOnly a with
    | some ks => .ok ks
    | none => .error .invalidKeys
  | _ => .error .invalidKeys
where
  strOnly : List JsonValue → Option (List Str)
    | [] => some []
    | .str s :: rest => (strOnly rest).map (s :: ·)
    | _ :: _ => none

/-- The per-property loop of `decode_object`: decode each value part,
then take the next schema key (`keys[i - 2]`, a panic when the list is too
short), in source order. -/
def objParts (d : Str → Except DecErr JsonValue) :
    List Str → List Str → Except DecErr (List (Str × JsonValue))
  | [], _ => .ok []
  | p :: ps, keys => do
    let v ← d p
    match keys with
    | [] => .error .keysTooShort
    | k :: ks => do
      let rest ← objParts d ps ks
      .ok ((k, v) :: rest)

/-- `decode`, with an explicit recursion bound.  Each recursive call in
the source (`decode_object`/`decode_array` on every part) descends one
level; a `fuel` of the value-list length plus two is enough for every
terminating decode, because each non-null step moves to a strictly earlier
store index on well-formed data, and on cyclic data the source would
recurse forever. -/
def decodeF : Nat → List Str → Str → Except DecErr JsonValue
  | 0, _, _ => .error .fuel
  | fuel + 1, values, key =>
    if key = [] ∨ key = ['_'] then .ok .null
    else
      match s_to_int? key with
      | none => .error .invalidKey
      | some id =>
        match values.get? id with
        | none => .error .indexOOB
        | some v_str =>
          if ['b','|'].isPrefixOf v_str then .ok (.bool (decode_bool v_str))
          else if ['o','|'].isPrefixOf v_str then
            if v_str = ['o','|'] then .ok (.obj [])
            else
              match splitC '|' v_str with
              | _ :: key_id :: rest => do
                let kv ← decodeF fuel values key_id
                let keys ← objKeys kv
                let pairs ← objParts (decodeF fuel values) rest keys
                .ok (.obj pairs)
              | _ => .error .invalidKeys
          else if ['N','|'].isPrefixOf v_str then
            -- `decode_special` yields one of the three non-finite doubles
            -- (a panic otherwise), and all three are turned into null
            if v_str = ['N','|','+'] ∨ v_str = ['N','|','-'] ∨ v_str = ['N','|','0']
            then .ok .null else .error .invalidSpecial
          else if ['n','|'].isPrefixOf v_str then
            let ns := v_str.drop 2
            match (if hasMarker ns then none else parseI64? ns) with
            | some i => .ok (.num i)
            | none =>
              match (if hasMarker ns then none else parseU64? ns) with
              | some u => .ok (.num (u : Int))
              | none =>
                if validF64Text ns then .ok (.floatNum ns)
                else .error .invalidNumber
          else if ['a','|'].isPrefixOf v_str then
            if v_str = ['a','|'] then .ok (.arr [])
            else
              match splitC '|' v_str with
              | _ :: parts => do
                let vals ← (parts.mapM (decodeF fuel values))
                .ok (.arr vals)
              | _ => .error .invalidKeys
          else .ok (.str (decode_str v_str))

/-- `decompress`: decode the root against the value list.  The fuel
`length + 2` is sufficient for every decode that terminates in the source
(see `decodeF`). -/
def decompress (c : List Str × Str) : Except DecErr JsonValue :=
  decodeF (c.1.length + 2) c.1 c.2

/-! ## The well-formed input fragment

`Good` carves out the values for which the amended round-trip holds:
no symbolic floats, integer numbers of magnitude at most `2 ^ 53`
(exactly representable in `f64`), and objects with distinct, comma-free
property names (distinctness is guaranteed by `serde_json::Map`;
comma-freedom excludes the schema-cache collision exhibited in the
round-trip counterexample). -/
inductive Good : JsonValue → Prop where
  | null : Good .null
  | bool (b : Bool) : Good (.bool b)
  | num (n : Int) : n.natAbs ≤ 2 ^ 53 → Good (.num n)
  | str (s : Str) : Good (.str s)
  | arr (xs : List JsonValue) : (∀ x ∈ xs, Good x) → Good (.arr xs)
  | obj (kvs : List (Str × JsonValue)) :
      (kvs.map (·.1)).Nodup →
      (∀ k ∈ kvs.map (·.1), ',' ∉ k) →
      (∀ v ∈ kvs.map (·.2), Good v) →
      Good (.obj kvs)

/-! ## Facts about the key codec -/

theorem charIdx_alphaChar : ∀ i, i < 62 → charIdx? (alphaChar i) = some i := by
  decide

theorem alphaChar_not_special :
    ∀ i, i < 62 → alphaChar i ≠ '|' ∧ alphaChar i ≠ ',' ∧ alphaChar i ≠ '_' := by
  decide

theorem alphaChar_inj : ∀ i, i < 62 → ∀ j, j < 62 → alphaChar i = alphaChar j → i = j := by
  decide

theorem int_to_s_core_eq_fuel (v : Nat) :
    ∀ f g, v ≤ f → v ≤ g → int_to_s_core f v = int_to_s_core g v := by
  induction v using Nat.strong_induction_on with
  | _ v ih =>
    intro f g hf hg
    match v, f, g with
    | 0, 0, 0 => rfl
    | 0, 0, _ + 1 => rfl
    | 0, _ + 1, 0 => rfl
    | 0, _ + 1, _ + 1 => rfl
    | v + 1, f + 1, g + 1 =>
      simp only [int_to_s_core]
      rw [ih ((v + 1) / 62) (Nat.div_lt_self (Nat.succ_pos v) (by omega)) f g
        (by omega) (by omega)]

theorem int_to_s_core_chars (v : Nat) :
    ∀ f, v ≤ f → ∀ c ∈ int_to_s_core f v, ∃ i, i < 62 ∧ c = alphaChar i := by
  induction v using Nat.strong_induction_on with
  | _ v ih =>
    intro f hf c hc
    match v, f with
    | 0, 0 => simp [int_to_s_core] at hc
    | 0, _ + 1 => simp [int_to_s_core] at hc
    | v + 1, f + 1 =>
      simp only [int_to_s_core, List.mem_cons] at hc
      rcases hc with rfl | hc
      · exact ⟨(v + 1) % 62, Nat.mod_lt _ (by omega), rfl⟩
      · exact ih ((v + 1) / 62) (Nat.div_lt_self (Nat.succ_pos v) (by omega)) f
          (by omega) c hc

theorem int_to_s_chars (n : Nat) :
    ∀ c ∈ int_to_s n, ∃ i, i < 62 ∧ c = alphaChar i := by
  intro c hc
  unfold int_to_s at hc
  split at hc
  · simp at hc
    exact ⟨0, by omega, hc⟩
  · rw [List.mem_reverse] at hc
    exact int_to_s_core_chars n n le_rfl c hc

theorem int_to_s_ne_nil (n : Nat) : int_to_s n ≠ [] := by
  unfold int_to_s
  split
  · simp
  · match n, ‹n ≠ 0› with
    | v + 1, _ =>
      simp only [int_to_s_core, ne_eq, List.reverse_eq_nil_iff]
      simp

theorem pipe_not_mem_int_to_s (n : Nat) : '|' ∉ int_to_s n := by
  intro h
  obtain ⟨i, hi, he⟩ := int_to_s_chars n '|' h
  exact (alphaChar_not_special i hi).1 he.symm

theorem comma_not_mem_int_to_s (n : Nat) : ',' ∉ int_to_s n := by
  intro h
  obtain ⟨i, hi, he⟩ := int_to_s_chars n ',' h
  exact (alphaChar_not_special i hi).2.1 he.symm

theorem int_to_s_ne_null_tok (n : Nat) : int_to_s n ≠ ['_'] := by
  intro h
  have : '_' ∈ int_to_s n := by rw [h]; simp
  obtain ⟨i, hi, he⟩ := int_to_s_chars n '_' this
  exact (alphaChar_not_special i hi).2.2 he.symm

theorem s_to_int_core_digits (v : Nat) :
    ∀ f acc pow, v ≤ f → acc < U64 →
      s_to_int_core (int_to_s_core f v) acc pow = some ((acc + v * pow) % U64) := by
  induction v using Nat.strong_induction_on with
  | _ v ih =>
    intro f acc pow hf hacc
    match v, f with
    | 0, 0 =>
      simp only [int_to_s_core, s_to_int_core]
      rw [Nat.zero_mul, Nat.add_zero, Nat.mod_eq_of_lt hacc]
    | 0, _ + 1 =>
      simp only [int_to_s_core, s_to_int_core]
      rw [Nat.zero_mul, Nat.add_zero, Nat.mod_eq_of_lt hacc]
    | v + 1, f + 1 =>
      simp only [int_to_s_core, s_to_int_core,
        charIdx_alphaChar ((v + 1) % 62) (Nat.mod_lt _ (by omega))]
      rw [ih ((v + 1) / 62) (Nat.div_lt_self (Nat.succ_pos v) (by omega)) f _ _
        (by omega) (Nat.mod_lt _ (by simp [U64]))]
      congr 1
      have h1 : (acc + (v + 1) % 62 * pow) % U64 + (v + 1) / 62 * (pow * 62 % U64)
          ≡ acc + (v + 1) % 62 * pow + (v + 1) / 62 * (pow * 62) [MOD U64] :=
        Nat.ModEq.add (Nat.mod_modEq _ _) ((Nat.mod_modEq _ _).mul_left _)
      have h2 : acc + (v + 1) % 62 * pow + (v + 1) / 62 * (pow * 62)
          = acc + (v + 1) * pow := by
        have := Nat.mod_add_div (v + 1) 62
        nlinarith [this]
      rw [← h2]
      exact h1

theorem s_to_int_int_to_s (n : Nat) (h : n < U64) :
    s_to_int? (int_to_s n) = some n := by
  unfold int_to_s s_to_int?
  split
  · subst n
    decide
  · rw [List.reverse_reverse,
      s_to_int_core_digits n n 0 1 le_rfl (by simp [U64])]
    rw [Nat.zero_add, Nat.mul_one, Nat.mod_eq_of_lt h]

theorem s_to_int_int_to_s_mod (n : Nat) :
    s_to_int? (int_to_s n) = some (n % U64) := by
  unfold int_to_s s_to_int?
  split
  · subst n
    decide
  · rw [List.reverse_reverse,
      s_to_int_core_digits n n 0 1 le_rfl (by simp [U64])]
    rw [Nat.zero_add, Nat.mul_one]

theorem int_to_s_inj_usize (i j : Nat) (hi : i < U64) (hj : j < U64)
    (h : int_to_s i = int_to_s j) : i = j := by
  have h1 := s_to_int_int_to_s i hi
  have h2 := s_to_int_int_to_s j hj
  rw [h, h2] at h1
  exact (Option.some_inj.mp h1).symm

/-! ## Facts about decimal digits and parsing -/

theorem digitVal_digitChar : ∀ d, d < 10 → digitVal? (digitChar d) = some d := by
  decide

theorem digitChar_props :
    ∀ d, d < 10 → digitChar d ≠ '-' ∧ digitChar d ≠ '+' ∧ digitChar d ≠ '.' ∧
      digitChar d ≠ 'e' ∧ digitChar d ≠ 'E' := by
  decide

theorem natDigitsCore_chars (v : Nat) :
    ∀ f, v ≤ f → ∀ c ∈ natDigitsCore f v, ∃ d, d < 10 ∧ c = digitChar d := by
  induction v using Nat.strong_induction_on with
  | _ v ih =>
    intro f hf c hc
    match v, f with
    | 0, 0 => simp [natDigitsCore] at hc
    | 0, _ + 1 => simp [natDigitsCore] at hc
    | v + 1, f + 1 =>
      simp only [natDigitsCore, List.mem_cons] at hc
      rcases hc with rfl | hc
      · exact ⟨(v + 1) % 10, Nat.mod_lt _ (by omega), rfl⟩
      · exact ih ((v + 1) / 10) (Nat.div_lt_self (Nat.succ_pos v) (by omega)) f
          (by omega) c hc

theorem natDigits_chars (n : Nat) :
    ∀ c ∈ natDigits n, ∃ d, d < 10 ∧ c = digitChar d := by
  intro c hc
  unfold natDigits at hc
  split at hc
  · simp at hc
    exact ⟨0, by omega, hc⟩
  · rw [List.mem_reverse] at hc
    exact natDigitsCore_chars n n le_rfl c hc

theorem natDigits_ne_nil (n : Nat) : natDigits n ≠ [] := by
  unfold natDigits
  split
  · simp
  · match n, ‹n ≠ 0› with
    | v + 1, _ =>
      simp only [natDigitsCore, ne_eq, List.reverse_eq_nil_iff]
      simp

theorem parseNatCore_append (l₁ l₂ : List Char) :
    ∀ acc, parseNatCore (l₁ ++ l₂) acc =
      match parseNatCore l₁ acc with
      | some m => parseNatCore l₂ m
      | none => none := by
  induction l₁ with
  | nil => intro acc; rfl
  | cons c cs ih =>
    intro acc
    simp only [List.cons_append, parseNatCore]
    cases digitVal? c with
    | none => rfl
    | some d => exact ih _

theorem parseNatCore_digits (v : Nat) :
    ∀ f acc, v ≤ f →
      ∃ k, parseNatCore ((natDigitsCore f v).reverse) acc = some (acc * 10 ^ k + v) := by
  induction v using Nat.strong_induction_on with
  | _ v ih =>
    intro f acc hf
    match v, f with
    | 0, 0 => exact ⟨0, by simp [natDigitsCore, parseNatCore]⟩
    | 0, _ + 1 => exact ⟨0, by simp [natDigitsCore, parseNatCore]⟩
    | v + 1, f + 1 =>
      simp only [natDigitsCore, List.reverse_cons]
      obtain ⟨k, hk⟩ := ih ((v + 1) / 10)
        (Nat.div_lt_self (Nat.succ_pos v) (by omega)) f acc (by omega)
      refine ⟨k + 1, ?_⟩
      rw [parseNatCore_append, hk]
      simp only [parseNatCore, digitVal_digitChar ((v + 1) % 10) (Nat.mod_lt _ (by omega))]
      congr 1
      have := Nat.mod_add_div (v + 1) 10
      ring_nf
      omega

theorem parseNat_natDigits (n : Nat) : parseNat? (natDigits n) = some n := by
  unfold natDigits parseNat?
  split
  · subst n
    decide
  · rw [if_neg]
    · obtain ⟨k, hk⟩ := parseNatCore_digits n n 0 le_rfl
      rw [hk]
      simp
    · match n, ‹n ≠ 0› with
      | v + 1, _ =>
        simp only [natDigitsCore, ne_eq, List.reverse_eq_nil_iff]
        simp

/-! ## Facts about splitting and joining -/

theorem splitC_ne_nil (c : Char) (s : Str) : splitC c s ≠ [] := by
  induction s with
  | nil => simp [splitC]
  | cons a rest ih =>
    simp only [splitC]
    cases h : splitC c rest with
    | nil => exact absurd h ih
    | cons r rs => by_cases hac : a = c <;> simp [hac]

theorem splitC_sep_free (c : Char) (p : Str) (h : c ∉ p) : splitC c p = [p] := by
  induction p with
  | nil => rfl
  | cons a rest ih =>
    simp only [List.mem_cons, not_or] at h
    have ha : ¬(a = c) := fun he => h.1 he.symm
    simp only [splitC]
    rw [ih h.2]
    simp [ha]

theorem splitC_append_sep (c : Char) (p s : Str) (h : c ∉ p) :
    splitC c (p ++ c :: s) = p :: splitC c s := by
  induction p with
  | nil =>
    simp only [List.nil_append, splitC, if_pos rfl]
    cases hs : splitC c s with
    | nil => exact absurd hs (splitC_ne_nil c s)
    | cons r rs => rfl
  | cons a rest ih =>
    simp only [List.mem_cons, not_or] at h
    have ha : ¬(a = c) := fun he => h.1 he.symm
    simp only [List.cons_append, splitC, List.append_eq]
    rw [ih h.2]
    simp [ha]

theorem splitC_joinC (c : Char) (ps : List Str) (hne : ps ≠ [])
    (hf : ∀ p ∈ ps, c ∉ p) : splitC c (joinC c ps) = ps := by
  induction ps with
  | nil => exact absurd rfl hne
  | cons p rest ih =>
    match rest with
    | [] =>
      simp only [joinC]
      exact splitC_sep_free c p (hf p (by simp))
    | q :: rest' =>
      simp only [joinC]
      rw [splitC_append_sep c p _ (hf p (by simp))]
      rw [ih (by simp) (fun x hx => hf x (List.mem_cons_of_mem p hx))]

theorem joinC_inj (c : Char) (ps qs : List Str) (hp : ps ≠ []) (hq : qs ≠ [])
    (hfp : ∀ p ∈ ps, c ∉ p) (hfq : ∀ q ∈ qs, c ∉ q)
    (he : joinC c ps = joinC c qs) : ps = qs := by
  rw [← splitC_joinC c ps hp hfp, ← splitC_joinC c qs hq hfq, he]

theorem joinC_cons (c : Char) (p : Str) (ks : List Str) :
    joinC c (p :: ks) = p ++ (ks.flatMap fun k => c :: k) := by
  induction ks generalizing p with
  | nil => simp [joinC]
  | cons k ks ih =>
    simp only [joinC, List.flatMap_cons]
    rw [ih k]
    simp

/-- `get?` agrees on a list extension below the prefix's length. -/
theorem IsPrefix_get? {l₁ l₂ : List Str} (h : l₁ <+: l₂) {i : Nat}
    {s : Str} (hs : l₁.get? i = some s) : l₂.get? i = some s := by
  obtain ⟨t, rfl⟩ := h
  rw [List.get?_append (List.get?_eq_some.mp hs).1]
  exact hs

/-! ## Facts about the `f64` model -/

theorem bitLen_le_of_lt {n m : Nat} (hm : m ≤ 127) (h : n < 2 ^ m) : bitLen n ≤ m := by
  unfold bitLen
  split
  · omega
  · rename_i hn
    have hfg : Nat.findGreatest (fun k => 2 ^ k ≤ n) 127 < m := by
      by_contra hge
      push_neg at hge
      have hp : 2 ^ Nat.findGreatest (fun k => 2 ^ k ≤ n) 127 ≤ n := by
        rcases Nat.eq_zero_or_pos (Nat.findGreatest (fun k => 2 ^ k ≤ n) 127) with h0 | hpos
        · rw [h0]
          simp only [pow_zero]
          omega
        · exact Nat.findGreatest_of_ne_zero (P := fun k => 2 ^ k ≤ n) rfl (by omega)
      have h2 : 2 ^ m ≤ 2 ^ Nat.findGreatest (fun k => 2 ^ k ≤ n) 127 :=
        Nat.pow_le_pow_right (by omega) hge
      omega
    omega

theorem bitLen_low {n : Nat} (h : 1 ≤ n) : 2 ^ (bitLen n - 1) ≤ n := by
  unfold bitLen
  rw [if_neg (by omega)]
  simp only [Nat.add_sub_cancel]
  rcases Nat.eq_zero_or_pos (Nat.findGreatest (fun k => 2 ^ k ≤ n) 127) with h0 | hpos
  · rw [h0]
    simpa using h
  · exact Nat.findGreatest_of_ne_zero (P := fun k => 2 ^ k ≤ n) rfl (by omega)

theorem bitLen_high {n : Nat} (h : n < 2 ^ 127) : n < 2 ^ bitLen n := by
  unfold bitLen
  split
  · omega
  · rename_i hn
    by_contra hc
    push_neg at hc
    have hlt : Nat.findGreatest (fun k => 2 ^ k ≤ n) 127
        < Nat.findGreatest (fun k => 2 ^ k ≤ n) 127 + 1 := by omega
    have hle : Nat.findGreatest (fun k => 2 ^ k ≤ n) 127 + 1 ≤ 127 := by
      by_contra hgt
      push_neg at hgt
      have : 2 ^ 127 ≤ 2 ^ (Nat.findGreatest (fun k => 2 ^ k ≤ n) 127 + 1) :=
        Nat.pow_le_pow_right (by omega) (by omega)
      omega
    exact Nat.findGreatest_is_greatest hlt hle hc

theorem rnd53n_small {n : Nat} (h : n ≤ 2 ^ 53) : rnd53n n = n := by
  unfold rnd53n
  rcases Nat.lt_or_ge n (2 ^ 53) with hlt | hge
  · rw [if_pos (bitLen_le_of_lt (by omega) hlt)]
  · have hn : n = 2 ^ 53 := by omega
    subst hn
    norm_num [bitLen]

theorem rnd53_small {n : Int} (h : n.natAbs ≤ 2 ^ 53) : rnd53 n = n := by
  unfold rnd53
  split
  · rw [rnd53n_small h]
    omega
  · rw [rnd53n_small h]
    omega

theorem shortestDec_small {v : Nat} (h : v ≤ 2 ^ 53) : shortestDec v = v := by
  unfold shortestDec
  rw [if_pos h]

theorem fmtF64i_small {n : Int} (h : n.natAbs ≤ 2 ^ 53) :
    fmtF64i n = if n < 0 then '-' :: natDigits n.natAbs else natDigits n.natAbs := by
  unfold fmtF64i
  rw [shortestDec_small h]

/-! ## Facts about the primitive encoders -/

theorem decode_bool_encode_bool (b : Bool) : decode_bool (encode_bool b) = b := by
  cases b <;> decide

theorem two_isPrefixOf_iff {a b : Char} {s : Str} :
    ([a, b].isPrefixOf s) = true ↔ ∃ t, s = a :: b :: t := by
  rw [List.isPrefixOf_iff_prefix]
  constructor
  · rintro ⟨t, ht⟩
    exact ⟨t, by rw [← ht]; rfl⟩
  · rintro ⟨t, rfl⟩
    exact ⟨t, rfl⟩

theorem decode_str_encode_str (s : Str) : decode_str (encode_str s) = s := by
  unfold encode_str decode_str
  by_cases h : reservedTags.any (·.isPrefixOf s) = true
  · rw [if_pos h, if_pos (by simp [List.isPrefixOf])]
    rfl
  · rw [if_neg h, if_neg]
    intro hp
    apply h
    simp only [List.any_eq_true]
    exact ⟨['s','|'], by decide, hp⟩

theorem hasMarker_natDigits (n : Nat) : hasMarker (natDigits n) = false := by
  rw [hasMarker, List.any_eq_false]
  intro c hc
  obtain ⟨d, hd, rfl⟩ := natDigits_chars n c hc
  have := digitChar_props d hd
  simp only [Bool.or_eq_true, beq_iff_eq, not_or]
  exact ⟨⟨this.2.2.1, this.2.2.2.1⟩, this.2.2.2.2⟩

theorem hasMarker_fmtF64i (n : Int) : hasMarker (fmtF64i n) = false := by
  unfold fmtF64i
  split
  · rw [hasMarker, List.any_eq_false]
    intro c hc
    simp only [List.mem_cons] at hc
    rcases hc with rfl | hc
    · decide
    · have h2 := hasMarker_natDigits (shortestDec (Int.natAbs n))
      rw [hasMarker, List.any_eq_false] at h2
      exact h2 c hc
  · exact hasMarker_natDigits _

theorem parseI64_fmtF64i {n : Int} (h : n.natAbs ≤ 2 ^ 53) :
    parseI64? (fmtF64i n) = some n := by
  rw [fmtF64i_small h]
  split
  · rename_i hneg
    have h1 : parseI64? ('-' :: natDigits n.natAbs) =
        (parseNat? (natDigits n.natAbs)).bind
          fun m => if m ≤ 2 ^ 63 then some (-(m : Int)) else none := rfl
    rw [h1, parseNat_natDigits]
    simp only [Option.some_bind]
    rw [if_pos (show n.natAbs ≤ 2 ^ 63 by omega)]
    congr 1
    omega
  · rename_i hpos
    cases hD : natDigits n.natAbs with
    | nil => exact absurd hD (natDigits_ne_nil _)
    | cons c rest =>
      have hc : ∃ d, d < 10 ∧ c = digitChar d := by
        apply natDigits_chars n.natAbs
        rw [hD]
        simp
      obtain ⟨d, hd, rfl⟩ := hc
      have hprops := digitChar_props d hd
      have h1 : parseI64? (digitChar d :: rest) =
          (parseNat? (digitChar d :: rest)).bind
            fun m => if m < 2 ^ 63 then some (m : Int) else none := by
        simp only [parseI64?]
        rw [if_neg hprops.1, if_neg hprops.2.1]
      rw [h1, ← hD, parseNat_natDigits]
      simp only [Option.some_bind]
      rw [if_pos (show n.natAbs < 2 ^ 63 by omega)]
      congr 1
      omega

/-! ## The decode correctness relation

`keyFuel k` is the recursion budget that suffices to decode the key `k`:
one step for the null keys, `i + 2` for a key addressing index `i` (each
recursive call inside an encoded value moves to a strictly smaller index
on compressor output).  `DecStable` states that a key decodes to a value
against every extension of a store — extensions never disturb a decode
that only reads existing indices. -/

/-- Fuel needed to decode key `k`. -/
def keyFuel (k : Str) : Nat :=
  if k = [] ∨ k = ['_'] then 1
  else
    match s_to_int? k with
    | some i => i + 2
    | none => 1

/-- `k` decodes to `v` against `store` and every extension of it, given
at least `keyFuel k` fuel. -/
def DecStable (store : List Str) (k : Str) (v : JsonValue) : Prop :=
  ∀ store' f, store <+: store' → keyFuel k ≤ f → decodeF f store' k = .ok v

theorem decStable_mono {store store' : List Str} {k : Str} {v : JsonValue}
    (h : DecStable store k v) (hp : store <+: store') : DecStable store' k v :=
  fun s'' f hp' hf => h s'' f (hp.trans hp') hf

theorem decStable_nil_key (store : List Str) : DecStable store [] .null := by
  intro store' f _ hf
  have h1 : keyFuel ([] : Str) = 1 := rfl
  rw [h1] at hf
  match f, hf with
  | f + 1, _ => rfl

theorem decStable_null_tok (store : List Str) : DecStable store ['_'] .null := by
  intro store' f _ hf
  have h1 : keyFuel ['_'] = 1 := rfl
  rw [h1] at hf
  match f, hf with
  | f + 1, _ => rfl

theorem keyFuel_int_to_s {i : Nat} (hi : i < U64) : keyFuel (int_to_s i) = i + 2 := by
  rw [keyFuel, if_neg, s_to_int_int_to_s i hi]
  push_neg
  exact ⟨int_to_s_ne_nil i, int_to_s_ne_null_tok i⟩

/-- One decoding step at a stored index: fetch succeeds and the result is
the dispatch on the fetched string. -/
theorem decodeF_at {f : Nat} {values : List Str} {i : Nat} (hi : i < U64)
    {enc : Str} (hget : values.get? i = some enc) :
    decodeF (f + 1) values (int_to_s i) =
      (if ['b','|'].isPrefixOf enc then .ok (.bool (decode_bool enc))
       else if ['o','|'].isPrefixOf enc then
         if enc = ['o','|'] then .ok (.obj [])
         else
           match splitC '|' enc with
           | _ :: key_id :: rest => do
             let kv ← decodeF f values key_id
             let keys ← objKeys kv
             let pairs ← objParts (decodeF f values) rest keys
             .ok (.obj pairs)
           | _ => .error .invalidKeys
       else if ['N','|'].isPrefixOf enc then
         if enc = ['N','|','+'] ∨ enc = ['N','|','-'] ∨ enc = ['N','|','0']
         then .ok .null else .error .invalidSpecial
       else if ['n','|'].isPrefixOf enc then
         let ns := enc.drop 2
         match (if hasMarker ns then none else parseI64? ns) with
         | some z => .ok (.num z)
         | none =>
           match (if hasMarker ns then none else parseU64? ns) with
           | some u => .ok (.num (u : Int))
           | none =>
             if validF64Text ns then .ok (.floatNum ns)
             else .error .invalidNumber
       else if ['a','|'].isPrefixOf enc then
         if enc = ['a','|'] then .ok (.arr [])
         else
           match splitC '|' enc with
           | _ :: parts => do
             let vals ← (parts.mapM (decodeF f values))
             .ok (.arr vals)
           | _ => .error .invalidKeys
       else .ok (.str (decode_str enc))) := by
  rw [decodeF]
  rw [if_neg (by push_neg; exact ⟨int_to_s_ne_nil i, int_to_s_ne_null_tok i⟩)]
  rw [s_to_int_int_to_s i hi]
  simp only [hget]

theorem exBind_ok {ε α β : Type} (a : α) (g : α → Except ε β) :
    ((Except.ok a : Except ε α) >>= g) = g a := rfl

theorem encode_str_not_tag (s : Str) :
    (['b','|'].isPrefixOf (encode_str s)) = false ∧
    (['o','|'].isPrefixOf (encode_str s)) = false ∧
    (['N','|'].isPrefixOf (encode_str s)) = false ∧
    (['n','|'].isPrefixOf (encode_str s)) = false ∧
    (['a','|'].isPrefixOf (encode_str s)) = false := by
  unfold encode_str
  split
  · simp [List.isPrefixOf]
  · rename_i h
    rw [List.any_eq_true] at h
    push_neg at h
    refine ⟨?_, ?_, ?_, ?_, ?_⟩ <;>
      exact Bool.eq_false_iff.mpr (h _ (by decide))

/-- Decoding a stored boolean. -/
theorem decSt_bool {store : List Str} {i : Nat} {b : Bool} (hi : i < U64)
    (hget : store.get? i = some (encode_bool b)) :
    DecStable store (int_to_s i) (.bool b) := by
  intro store' f hp hf
  rw [keyFuel_int_to_s hi] at hf
  match f, hf with
  | f + 1, _ =>
    rw [decodeF_at hi (IsPrefix_get? hp hget)]
    cases b <;> rfl

/-- Decoding a stored string. -/
theorem decSt_str {store : List Str} {i : Nat} {s : Str} (hi : i < U64)
    (hget : store.get? i = some (encode_str s)) :
    DecStable store (int_to_s i) (.str s) := by
  intro store' f hp hf
  rw [keyFuel_int_to_s hi] at hf
  match f, hf with
  | f + 1, _ =>
    rw [decodeF_at hi (IsPrefix_get? hp hget)]
    have hn := encode_str_not_tag s
    rw [if_neg (by simp [hn.1]), if_neg (by simp [hn.2.1]),
      if_neg (by simp [hn.2.2.1]), if_neg (by simp [hn.2.2.2.1]),
      if_neg (by simp [hn.2.2.2.2]), decode_str_encode_str]

/-- Decoding a stored integer number (exactly representable range). -/
theorem decSt_num {store : List Str} {i : Nat} {n : Int} (hi : i < U64)
    (hn : n.natAbs ≤ 2 ^ 53)
    (hget : store.get? i = some (encode_num n)) :
    DecStable store (int_to_s i) (.num n) := by
  intro store' f hp hf
  rw [keyFuel_int_to_s hi] at hf
  match f, hf with
  | f + 1, _ =>
    rw [decodeF_at hi (IsPrefix_get? hp hget)]
    rw [if_neg (by simp [encode_num, List.isPrefixOf]),
      if_neg (by simp [encode_num, List.isPrefixOf]),
      if_neg (by simp [encode_num, List.isPrefixOf]),
      if_pos (by simp [encode_num, List.isPrefixOf])]
    have hdrop : (encode_num n).drop 2 = fmtF64i n := rfl
    rw [hdrop]
    simp only [hasMarker_fmtF64i, Bool.false_eq_true, if_false, parseI64_fmtF64i hn]

/-- Decoding the empty-array encoding. -/
theorem decSt_arr_nil {store : List Str} {i : Nat} (hi : i < U64)
    (hget : store.get? i = some ['a','|']) :
    DecStable store (int_to_s i) (.arr []) := by
  intro store' f hp hf
  rw [keyFuel_int_to_s hi] at hf
  match f, hf with
  | f + 1, _ =>
    rw [decodeF_at hi (IsPrefix_get? hp hget)]
    rfl

/-- Decoding the empty-object encoding. -/
theorem decSt_obj_nil {store : List Str} {i : Nat} (hi : i < U64)
    (hget : store.get? i = some ['o','|']) :
    DecStable store (int_to_s i) (.obj []) := by
  intro store' f hp hf
  rw [keyFuel_int_to_s hi] at hf
  match f, hf with
  | f + 1, _ =>
    rw [decodeF_at hi (IsPrefix_get? hp hget)]
    rfl

theorem strOnly_map_str (ks : List Str) : objKeys.strOnly (ks.map .str) = some ks := by
  induction ks with
  | nil => rfl
  | cons k ks ih =>
    simp only [List.map_cons, objKeys.strOnly, ih]
    rfl

theorem objKeys_str_arr (ks : List Str) : objKeys (.arr (ks.map .str)) = .ok ks := by
  rw [objKeys, strOnly_map_str]

theorem list_mapM_ok {γ : Type} (g : Str → Except γ JsonValue)
    (l : List (Str × JsonValue)) (h : ∀ p ∈ l, g p.1 = .ok p.2) :
    (l.map (·.1)).mapM g = .ok (l.map (·.2)) := by
  induction l with
  | nil => rfl
  | cons p ps ih =>
    rw [List.map_cons, List.map_cons, List.mapM_cons, h p (by simp)]
    rw [ih (fun q hq => h q (List.mem_cons_of_mem p hq))]
    rfl

theorem objParts_ok (g : Str → Except DecErr JsonValue)
    (l : List (Str × (Str × JsonValue)))
    (h : ∀ p ∈ l, g p.1 = .ok p.2.2) :
    objParts g (l.map (·.1)) (l.map (·.2.1)) = .ok (l.map (·.2)) := by
  induction l with
  | nil => rfl
  | cons p ps ih =>
    obtain ⟨vk, k, v⟩ := p
    have h1 : g vk = .ok v := h (vk, k, v) (by simp)
    simp only [List.map_cons, objParts, h1, exBind_ok]
    rw [ih (fun q hq => h q (List.mem_cons_of_mem _ hq))]
    rfl

/-- Conditions on a key embedded in a container stored at index `i`:
pipe-free, within the fuel budget of the container, and decoding to its
value. -/
def ElemKey (store : List Str) (i : Nat) (k : Str) (v : JsonValue) : Prop :=
  '|' ∉ k ∧ keyFuel k ≤ i + 1 ∧ DecStable store k v

/-- Decoding a stored non-empty array encoding.  `l` pairs each element
key with its element value. -/
theorem decSt_arr {store : List Str} {i : Nat} {l : List (Str × JsonValue)}
    (hi : i < U64)
    (hget : store.get? i = some (joinC '|' (['a'] :: l.map (·.1))))
    (hne : l ≠ [])
    (helem : ∀ p ∈ l, p.1 ≠ [] ∧ ElemKey store i p.1 p.2) :
    DecStable store (int_to_s i) (.arr (l.map (·.2))) := by
  intro store' f hp hf
  rw [keyFuel_int_to_s hi] at hf
  match f, hf, l, hne with
  | f + 1, hf, p1 :: lrest, _ =>
    rw [decodeF_at hi (IsPrefix_get? hp hget)]
    have hjoin : joinC '|' (['a'] :: (p1 :: lrest).map (·.1))
        = 'a' :: '|' :: joinC '|' ((p1 :: lrest).map (·.1)) := rfl
    rw [hjoin]
    rw [if_neg (by simp [List.isPrefixOf]), if_neg (by simp [List.isPrefixOf]),
      if_neg (by simp [List.isPrefixOf]), if_neg (by simp [List.isPrefixOf]),
      if_pos (by simp [List.isPrefixOf])]
    have hk1 : joinC '|' ((p1 :: lrest).map (·.1)) ≠ [] := by
      rw [List.map_cons, joinC_cons]
      have := (helem p1 (by simp)).1
      intro hc
      rcases List.append_eq_nil.mp hc with ⟨h1, _⟩
      exact this h1
    rw [if_neg (by simp only [ne_eq, List.cons.injEq]; intro hc; exact hk1 hc.2.2)]
    have hsplit : splitC '|' ('a' :: '|' :: joinC '|' ((p1 :: lrest).map (·.1)))
        = ['a'] :: (p1 :: lrest).map (·.1) := by
      rw [← hjoin]
      apply splitC_joinC
      · simp
      · intro p hp'
        simp only [List.mem_cons] at hp'
        rcases hp' with rfl | hp'
        · simp
        · obtain ⟨q, hq, rfl⟩ := List.mem_map.mp hp'
          exact (helem q hq).2.1
    rw [hsplit]
    have hmap : ((p1 :: lrest).map (·.1)).mapM (decodeF f store')
        = .ok ((p1 :: lrest).map (·.2)) := by
      apply list_mapM_ok
      intro q hq
      have hb := (helem q hq).2.2.1
      exact (helem q hq).2.2.2 store' f hp (by omega)
    simp only [hmap, exBind_ok]

/-- Decoding a stored non-empty object encoding.  `sk` is the schema key;
`l` carries, per property, the value key and the (name, value) pair. -/
theorem decSt_obj {store : List Str} {i : Nat} {sk : Str}
    {l : List (Str × (Str × JsonValue))} (hi : i < U64)
    (hget : store.get? i = some (joinC '|' (['o'] :: sk :: l.map (·.1))))
    (hskne : sk ≠ []) (hskp : '|' ∉ sk) (hskf : keyFuel sk ≤ i + 1)
    (hskd : DecStable store sk (.arr ((l.map (·.2.1)).map .str)))
    (helem : ∀ p ∈ l, ElemKey store i p.1 p.2.2) :
    DecStable store (int_to_s i) (.obj (l.map (·.2))) := by
  intro store' f hp hf
  rw [keyFuel_int_to_s hi] at hf
  match f, hf with
  | f + 1, hf =>
    rw [decodeF_at hi (IsPrefix_get? hp hget)]
    have hjoin : joinC '|' (['o'] :: sk :: l.map (·.1))
        = 'o' :: '|' :: joinC '|' (sk :: l.map (·.1)) := rfl
    rw [hjoin]
    rw [if_neg (by simp [List.isPrefixOf]), if_pos (by simp [List.isPrefixOf])]
    have hk1 : joinC '|' (sk :: l.map (·.1)) ≠ [] := by
      rw [joinC_cons]
      intro hc
      rcases List.append_eq_nil.mp hc with ⟨h1, _⟩
      exact hskne h1
    rw [if_neg (by simp only [ne_eq, List.cons.injEq]; intro hc; exact hk1 hc.2.2)]
    have hsplit : splitC '|' ('o' :: '|' :: joinC '|' (sk :: l.map (·.1)))
        = ['o'] :: sk :: l.map (·.1) := by
      rw [← hjoin]
      apply splitC_joinC
      · simp
      · intro p hp'
        simp only [List.mem_cons] at hp'
        rcases hp' with rfl | rfl | hp'
        · simp
        · exact hskp
        · obtain ⟨q, hq, rfl⟩ := List.mem_map.mp hp'
          exact (helem q hq).1
    rw [hsplit]
    have hskdec : decodeF f store' sk = .ok (.arr ((l.map (·.2.1)).map .str)) :=
      hskd store' f hp (by omega)
    have hparts : objParts (decodeF f store') (l.map (·.1)) (l.map (·.2.1))
        = .ok (l.map (·.2)) := by
      apply objParts_ok
      intro q hq
      have hb := (helem q hq).2.1
      exact (helem q hq).2.2 store' f hp (by omega)
    simp only [hskdec, exBind_ok, objKeys_str_arr, hparts]

/-! ## The compression invariant

`RefB s i` bounds the references embedded in a stored container string by
the index `i` the string is stored at: every key appearing after the tag
needs fuel at most `i + 1`.  `Inv` ties the store and the two caches
together. -/

/-- Reference bound for a container string stored at index `i`. -/
def RefB (s : Str) (i : Nat) : Prop :=
  (['a','|'].isPrefixOf s = true ∨ ['o','|'].isPrefixOf s = true) →
    ∀ k ∈ (splitC '|' s).tail, keyFuel k ≤ i + 1

theorem RefB_mono {s : Str} {i j : Nat} (h : RefB s i) (hij : i ≤ j) : RefB s j :=
  fun htag k hk => le_trans (h htag k hk) (by omega)

/-- The invariant maintained by every store operation. -/
structure Inv (m : Memory) : Prop where
  count : m.key_count = m.store.length
  nodup : m.store.Nodup
  complete : ∀ s ∈ m.store, (m.value_cache.lookup s).isSome
  vc : ∀ p ∈ m.value_cache, ∃ i, i < m.store.length ∧ p.2 = int_to_s i ∧
        m.store.get? i = some p.1 ∧ RefB p.1 i
  sc : ∀ p ∈ m.schema_cache, ∃ ks i, (∀ x ∈ ks, ',' ∉ x) ∧ ks ≠ [] ∧
        p.1 = joinC ',' ks ∧ p.2 = int_to_s i ∧ i < m.store.length ∧
        DecStable m.store p.2 (.arr (ks.map .str))

theorem Inv_make : Inv make_memory := by
  constructor <;> simp [make_memory]

/-- Soundness of the dedup choke point. -/
theorem get_value_key_sound {m : Memory} {enc k : Str} {m' : Memory}
    (hInv : Inv m) (hRefB : RefB enc m.store.length)
    (h : get_value_key m enc = (k, m')) :
    Inv m' ∧ m.store <+: m'.store ∧ m'.store.length ≤ m.store.length + 1 ∧
    m'.schema_cache = m.schema_cache ∧
    ∃ i, i < m'.store.length ∧ k = int_to_s i ∧
      m'.store.get? i = some enc ∧ RefB enc i := by
  unfold get_value_key at h
  cases hl : m.value_cache.lookup enc with
  | some ck =>
    simp only [hl, Prod.mk.injEq] at h
    obtain ⟨rfl, rfl⟩ := h
    obtain ⟨l₁, l₂, hsplit, -⟩ := List.lookup_eq_some_iff.mp hl
    have hmem : (enc, ck) ∈ m.value_cache := by
      rw [hsplit]
      simp
    obtain ⟨i, hi, hkey, hget, hrefb⟩ := hInv.vc (enc, ck) hmem
    exact ⟨hInv, List.prefix_refl _, by omega, rfl, i, hi, hkey, hget, hrefb⟩
  | none =>
    simp only [hl, Prod.mk.injEq] at h
    obtain ⟨rfl, rfl⟩ := h
    have hnotmem : enc ∉ m.store := by
      intro hmem
      have := hInv.complete enc hmem
      rw [hl] at this
      simp at this
    have hpre : m.store <+: m.store ++ [enc] := ⟨[enc], rfl⟩
    have hgetnew : (m.store ++ [enc]).get? m.store.length = some enc :=
      List.get?_concat_length m.store enc
    refine ⟨?_, hpre, by simp, rfl, m.store.length, by simp, by rw [hInv.count],
      hgetnew, hRefB⟩
    constructor
    · simp [hInv.count]
    · rw [List.nodup_append]
      exact ⟨hInv.nodup, by simp, by
        intro a ha hb
        simp only [List.mem_singleton] at hb
        subst hb
        exact hnotmem ha⟩
    · intro s hs
      rw [List.mem_append] at hs
      rw [List.lookup_cons]
      rcases hs with hs | hs
      · split
        · simp
        · exact hInv.complete s hs
      · simp only [List.mem_singleton] at hs
        subst hs
        simp
    · intro p hp
      rw [List.mem_cons] at hp
      rcases hp with rfl | hp
      · exact ⟨m.store.length, by simp, by rw [hInv.count], hgetnew, hRefB⟩
      · obtain ⟨i, hi, hkey, hget, hrefb⟩ := hInv.vc p hp
        exact ⟨i, by simp; omega, hkey, IsPrefix_get? hpre hget, hrefb⟩
    · intro p hp
      obtain ⟨ks, i, hks, hne, hj, hkey, hi, hdec⟩ := hInv.sc p hp
      exact ⟨ks, i, hks, hne, hj, hkey, by simp; omega, decStable_mono hdec hpre⟩

theorem RefB_of_not_container {s : Str} (ha : (['a','|'].isPrefixOf s) = false)
    (ho : (['o','|'].isPrefixOf s) = false) (i : Nat) : RefB s i := by
  intro htag
  rcases htag with h | h <;> simp_all

theorem RefB_encode_str (s : Str) (i : Nat) : RefB (encode_str s) i :=
  RefB_of_not_container (encode_str_not_tag s).2.2.2.2 (encode_str_not_tag s).2.1 i

theorem RefB_encode_bool (b : Bool) (i : Nat) : RefB (encode_bool b) i := by
  apply RefB_of_not_container <;> cases b <;> rfl

theorem RefB_num_like (t : Str) (i : Nat) : RefB ('n' :: '|' :: t) i := by
  apply RefB_of_not_container <;> simp [List.isPrefixOf]

theorem keyFuel_nil : keyFuel [] = 1 := rfl

theorem keyFuel_le_of_int_to_s {i n : Nat} (hi : i < U64) (hin : i < n) :
    keyFuel (int_to_s i) ≤ n + 1 := by
  rw [keyFuel_int_to_s hi]
  omega

/-- Soundness of the element loop of `intern_str_arr` (string leaves). -/
theorem intern_go_sound :
    ∀ (ks : List Str) (m : Memory), Inv m →
    m.store.length + ks.length ≤ U64 →
    ∀ {acc : Str} {m' : Memory}, intern_str_arr.go m ks = (acc, m') →
    Inv m' ∧ m.store <+: m'.store ∧
    m'.store.length ≤ m.store.length + ks.length ∧
    m'.schema_cache = m.schema_cache ∧
    ∃ l : List (Str × JsonValue),
      l.map (·.2) = ks.map .str ∧
      acc = (l.map (·.1)).flatMap (fun k => '|' :: k) ∧
      ∀ p ∈ l, p.1 ≠ [] ∧ '|' ∉ p.1 ∧ keyFuel p.1 ≤ m'.store.length + 1 ∧
        DecStable m'.store p.1 p.2 := by
  intro ks
  induction ks with
  | nil =>
    intro m hInv hroom acc m' h
    simp only [intern_str_arr.go, Prod.mk.injEq] at h
    obtain ⟨rfl, rfl⟩ := h
    exact ⟨hInv, List.prefix_refl _, by omega, rfl, [], by simp, by simp, by simp⟩
  | cons k rest ih =>
    intro m hInv hroom acc m' h
    rw [List.length_cons] at hroom
    simp only [intern_str_arr.go] at h
    cases hg : get_value_key m (encode_str k) with
    | mk key m1 =>
      rw [hg] at h
      cases hrest : intern_str_arr.go m1 rest with
      | mk acc2 m2 =>
        rw [hrest] at h
        simp only [Prod.mk.injEq] at h
        obtain ⟨rfl, rfl⟩ := h
        obtain ⟨hInv1, hpre1, hlen1, hsc1, i, hi, rfl, hget, -⟩ :=
          get_value_key_sound hInv (RefB_encode_str k m.store.length) hg
        obtain ⟨hInv2, hpre2, hlen2, hsc2, l, hl2, hacc, helem⟩ :=
          ih m1 hInv1 (by omega) hrest
        have hiU : i < U64 := by omega
        have hlen12 : m1.store.length ≤ m2.store.length := hpre2.length_le
        refine ⟨hInv2, hpre1.trans hpre2, by rw [List.length_cons]; omega,
          by rw [hsc2, hsc1], (int_to_s i, .str k) :: l, by simp [hl2],
          by simp [hacc], ?_⟩
        intro p hp
        rcases List.mem_cons.mp hp with rfl | hp
        · exact ⟨int_to_s_ne_nil i, pipe_not_mem_int_to_s i,
            keyFuel_le_of_int_to_s hiU (by omega),
            decStable_mono (decSt_str hiU hget) hpre2⟩
        · obtain ⟨h1, h2, h3, h4⟩ := helem p hp
          exact ⟨h1, h2, h3, h4⟩

/-- Soundness of `intern_str_arr`. -/
theorem intern_str_arr_sound {m : Memory} {ks : List Str} {k : Str} {m' : Memory}
    (hInv : Inv m) (hne : ks ≠ [])
    (hroom : m.store.length + ks.length + 1 ≤ U64)
    (h : intern_str_arr m ks = (k, m')) :
    Inv m' ∧ m.store <+: m'.store ∧
    m'.store.length ≤ m.store.length + ks.length + 1 ∧
    m'.schema_cache = m.schema_cache ∧
    ∃ i, i < m'.store.length ∧ i < U64 ∧ k = int_to_s i ∧
      (∃ s, m'.store.get? i = some s) ∧
      DecStable m'.store k (.arr (ks.map .str)) := by
  unfold intern_str_arr at h
  cases hgo : intern_str_arr.go m ks with
  | mk acc m2 =>
    simp only [hgo] at h
    obtain ⟨hInv2, hpre2, hlen2, hsc2, l, hl2, hacc, helem⟩ :=
      intern_go_sound ks m hInv (by omega) hgo
    have hlne : l ≠ [] := by
      intro hc
      subst hc
      simp only [List.map_nil] at hl2
      exact hne (List.map_eq_nil_iff.mp hl2.symm)
    have haccne : acc ≠ [] := by
      subst hacc
      match l, hlne with
      | p :: l', _ => simp
    have haccne2 : ('a' :: acc) ≠ ['a'] := by
      intro hc
      injection hc with h1 h2
      exact haccne h2
    rw [if_neg haccne2] at h
    have hform : 'a' :: acc = joinC '|' (['a'] :: l.map (·.1)) := by
      rw [joinC_cons, hacc, List.singleton_append]
    have hRefB : RefB ('a' :: acc) m2.store.length := by
      intro _ kk hkk
      rw [hform] at hkk
      rw [splitC_joinC _ _ (by simp) ?pf] at hkk
      case pf =>
        intro p hp
        rcases List.mem_cons.mp hp with rfl | hp
        · simp
        · obtain ⟨q, hq, rfl⟩ := List.mem_map.mp hp
          exact (helem q hq).2.1
      simp only [List.tail_cons] at hkk
      obtain ⟨q, hq, rfl⟩ := List.mem_map.mp hkk
      exact (helem q hq).2.2.1
    obtain ⟨hInv', hpre', hlen', hsc', i, hi, rfl, hget, hrefb⟩ :=
      get_value_key_sound hInv2 hRefB h
    have hiU : i < U64 := by omega
    refine ⟨hInv', hpre2.trans hpre', by omega, by rw [hsc', hsc2], i, hi, hiU,
      rfl, ⟨_, hget⟩, ?_⟩
    have htag : (['a','|'].isPrefixOf ('a' :: acc)) = true := by
      rw [two_isPrefixOf_iff]
      match l, hlne, hacc with
      | q :: l', _, hacc2 =>
        refine ⟨q.1 ++ (List.map (fun x => x.1) l').flatMap fun k => '|' :: k, ?_⟩
        rw [hacc2]
        simp
    have hdec : DecStable m'.store (int_to_s i) (.arr (l.map (·.2))) := by
      apply decSt_arr hiU (by rw [← hform]; exact hget) hlne
      intro p hp
      refine ⟨(helem p hp).1, (helem p hp).2.1, ?_, decStable_mono
        ((helem p hp).2.2.2) hpre'⟩
      apply hrefb (Or.inl htag)
      rw [hform, splitC_joinC _ _ (by simp) ?pf2]
      case pf2 =>
        intro q hq
        rcases List.mem_cons.mp hq with rfl | hq
        · simp
        · obtain ⟨r, hr, rfl⟩ := List.mem_map.mp hq
          exact (helem r hr).2.1
      simp only [List.tail_cons]
      exact List.mem_map_of_mem _ hp
    rw [hl2] at hdec
    exact hdec

/-- Soundness of `get_schema` for comma-free key lists (the only ones for
which the joined cache key is unambiguous). -/
theorem get_schema_sound {m : Memory} {keys : List Str} {k : Str} {m' : Memory}
    (hInv : Inv m) (hne : keys ≠ []) (hcomma : ∀ x ∈ keys, ',' ∉ x)
    (hroom : m.store.length + keys.length + 1 ≤ U64)
    (h : get_schema m keys = (k, m')) :
    Inv m' ∧ m.store <+: m'.store ∧
    m'.store.length ≤ m.store.length + keys.length + 1 ∧
    ∃ i, i < m'.store.length ∧ i < U64 ∧ k = int_to_s i ∧
      (∃ s, m'.store.get? i = some s) ∧
      DecStable m'.store k (.arr (keys.map .str)) := by
  unfold get_schema at h
  rw [show CONFIG.sort_key = false from rfl] at h
  simp only [Bool.false_eq_true, if_false] at h
  cases hl : m.schema_cache.lookup (joinC ',' keys) with
  | some sk =>
    simp only [hl, Prod.mk.injEq] at h
    obtain ⟨rfl, rfl⟩ := h
    obtain ⟨l₁, l₂, hsplit, -⟩ := List.lookup_eq_some_iff.mp hl
    have hmem : (joinC ',' keys, sk) ∈ m.schema_cache := by
      rw [hsplit]
      simp
    obtain ⟨ks', i, hks', hne', hj, hkey, hi, hdec⟩ := hInv.sc _ hmem
    have hkeq : ks' = keys := joinC_inj ',' ks' keys hne' hne hks' hcomma hj.symm
    subst hkeq
    have hget : ∃ s, m.store.get? i = some s :=
      ⟨m.store.get ⟨i, hi⟩, List.get?_eq_get hi⟩
    exact ⟨hInv, List.prefix_refl _, by omega, i, hi, by omega, hkey, hget, hdec⟩
  | none =>
    cases hi2 : intern_str_arr m keys with
    | mk key_id m1 =>
      simp only [hl, hi2, Prod.mk.injEq] at h
      obtain ⟨rfl, rfl⟩ := h
      obtain ⟨hInv1, hpre1, hlen1, hsc1, i, hi, hiU, rfl, hget, hdec⟩ :=
        intern_str_arr_sound hInv hne hroom hi2
      refine ⟨?_, hpre1, hlen1, i, hi, hiU, rfl, hget, hdec⟩
      constructor
      · exact hInv1.count
      · exact hInv1.nodup
      · exact hInv1.complete
      · exact hInv1.vc
      · intro p hp
        rcases List.mem_cons.mp hp with rfl | hp
        · exact ⟨keys, i, hcomma, hne, rfl, rfl, hi, hdec⟩
        · exact hInv1.sc p hp

/-- The soundness contract of `add_value m o = r`. -/
def AVS (m : Memory) (o : JsonValue) (r : Str × Memory) : Prop :=
  Inv r.2 ∧ m.store <+: r.2.store ∧
  r.2.store.length ≤ m.store.length + size o ∧
  DecStable r.2.store r.1 o ∧
  ((r.1 = [] ∧ o = .null) ∨ ∃ i, i < r.2.store.length ∧ i < U64 ∧ r.1 = int_to_s i)

theorem AVS_key_facts {m : Memory} {o : JsonValue} {r : Str × Memory}
    (h : AVS m o r) : '|' ∉ r.1 ∧ keyFuel r.1 ≤ r.2.store.length + 1 := by
  rcases h.2.2.2.2 with ⟨hk, -⟩ | ⟨i, hi, hiU, hk⟩
  · rw [hk, keyFuel_nil]
    exact ⟨by simp, by omega⟩
  · rw [hk]
    exact ⟨pipe_not_mem_int_to_s i, keyFuel_le_of_int_to_s hiU hi⟩

theorem sizeL_mem {x : JsonValue} : ∀ {xs : List JsonValue}, x ∈ xs →
    size x ≤ size.sizeL xs := by
  intro xs
  induction xs with
  | nil => intro h; simp at h
  | cons y ys ih =>
    intro h
    rcases List.mem_cons.mp h with rfl | h
    · simp [size.sizeL]
    · have := ih h
      simp only [size.sizeL]
      omega

theorem sizeKV_mem {v : JsonValue} : ∀ {kvs : List (Str × JsonValue)},
    v ∈ kvs.map (·.2) → size v < size.sizeKV kvs := by
  intro kvs
  induction kvs with
  | nil => intro h; simp at h
  | cons y ys ih =>
    intro h
    simp only [List.map_cons, List.mem_cons] at h
    rcases h with rfl | h
    · simp only [size.sizeKV]
      omega
    · have := ih h
      simp only [size.sizeKV]
      omega

theorem sizeKV_len : ∀ (kvs : List (Str × JsonValue)),
    kvs.length ≤ size.sizeKV kvs := by
  intro kvs
  induction kvs with
  | nil => simp [size.sizeKV]
  | cons y ys ih =>
    simp only [size.sizeKV, List.length_cons]
    omega

theorem sizeL_cons (x : JsonValue) (xs : List JsonValue) :
    size.sizeL (x :: xs) = size x + size.sizeL xs := rfl

theorem sizeKV_cons (kv : Str × JsonValue) (kvs : List (Str × JsonValue)) :
    size.sizeKV (kv :: kvs) = 1 + size kv.2 + size.sizeKV kvs := rfl

/-- Soundness of the array-element loop, taking the element soundness as a
hypothesis. -/
theorem add_elems_sound : ∀ (xs : List JsonValue),
    (∀ x ∈ xs, ∀ m1 : Memory, Inv m1 →
      m1.store.length + size x ≤ U64 → AVS m1 x (add_value m1 x)) →
    ∀ (m : Memory), Inv m → m.store.length + size.sizeL xs ≤ U64 →
    ∀ {acc : Str} {m' : Memory}, add_elems m xs = (acc, m') →
    Inv m' ∧ m.store <+: m'.store ∧
    m'.store.length ≤ m.store.length + size.sizeL xs ∧
    ∃ l : List (Str × JsonValue), l.map (·.2) = xs ∧
      acc = (l.map (·.1)).flatMap (fun k => '|' :: k) ∧
      ∀ p ∈ l, p.1 ≠ [] ∧ '|' ∉ p.1 ∧ keyFuel p.1 ≤ m'.store.length + 1 ∧
        DecStable m'.store p.1 p.2 := by
  intro xs
  induction xs with
  | nil =>
    intro _ m hInv hroom acc m' h
    simp only [add_elems, Prod.mk.injEq] at h
    obtain ⟨rfl, rfl⟩ := h
    exact ⟨hInv, List.prefix_refl _, by simp [size.sizeL], [], by simp, by simp,
      by simp⟩
  | cons v vs ih =>
    intro hih m hInv hroom acc m' h
    simp only [add_elems] at h
    rw [sizeL_cons] at hroom
    by_cases hv : v = JsonValue.null
    · rw [if_pos hv] at h
      cases hrest : add_elems m vs with
      | mk acc2 m2 =>
        rw [hrest] at h
        simp only [Prod.mk.injEq] at h
        obtain ⟨rfl, rfl⟩ := h
        obtain ⟨hInv2, hpre2, hlen2, l, hl2, hacc, helem⟩ :=
          ih (fun x hx => hih x (List.mem_cons_of_mem v hx)) m hInv (by omega) hrest
        refine ⟨hInv2, hpre2, by rw [sizeL_cons]; omega,
          (['_'], .null) :: l, by simp [hl2, hv], by simp [hacc], ?_⟩
        intro p hp
        rcases List.mem_cons.mp hp with rfl | hp
        · exact ⟨by simp, by simp, by rw [show keyFuel ['_'] = 1 from rfl]; omega,
            decStable_null_tok _⟩
        · exact helem p hp
    · rw [if_neg hv] at h
      cases hav : add_value m v with
      | mk key m1 =>
        rw [hav] at h
        cases hrest : add_elems m1 vs with
        | mk acc2 m2 =>
          rw [hrest] at h
          simp only [Prod.mk.injEq] at h
          obtain ⟨rfl, rfl⟩ := h
          have havs := hih v (by simp) m hInv (by omega)
          rw [hav] at havs
          obtain ⟨hInv1, hpre1, hlen1, hdec1, hform1⟩ := havs
          have hI1 : Inv m1 := hInv1
          have hL1 : m1.store.length ≤ m.store.length + size v := hlen1
          have hP1 : m.store <+: m1.store := hpre1
          have hD1 : DecStable m1.store key v := hdec1
          obtain ⟨hInv2, hpre2, hlen2, l, hl2, hacc, helem⟩ :=
            ih (fun x hx => hih x (List.mem_cons_of_mem v hx)) m1 hI1
              (by omega) hrest
          have hlen12 : m1.store.length ≤ m2.store.length := hpre2.length_le
          refine ⟨hInv2, hP1.trans hpre2, by rw [sizeL_cons]; omega,
            (key, v) :: l, by simp [hl2], by simp [hacc], ?_⟩
          intro p hp
          rcases List.mem_cons.mp hp with rfl | hp
          · rcases hform1 with ⟨-, hnull⟩ | ⟨i, hi, hiU, hkey⟩
            · exact absurd hnull hv
            · have hkey2 : key = int_to_s i := hkey
              have hi1 : i < m1.store.length := hi
              subst hkey2
              exact ⟨int_to_s_ne_nil i, pipe_not_mem_int_to_s i,
                keyFuel_le_of_int_to_s hiU (by omega),
                decStable_mono hD1 hpre2⟩
          · exact helem p hp

/-- Soundness of the object-value loop. -/
theorem add_vals_sound : ∀ (kvs : List (Str × JsonValue)),
    (∀ x ∈ kvs.map (·.2), ∀ m1 : Memory, Inv m1 →
      m1.store.length + size x ≤ U64 → AVS m1 x (add_value m1 x)) →
    ∀ (m : Memory), Inv m → m.store.length + size.sizeKV kvs ≤ U64 →
    ∀ {acc : Str} {m' : Memory}, add_vals m kvs = (acc, m') →
    Inv m' ∧ m.store <+: m'.store ∧
    m'.store.length ≤ m.store.length + size.sizeKV kvs ∧
    ∃ l : List (Str × (Str × JsonValue)), l.map (·.2) = kvs ∧
      acc = (l.map (·.1)).flatMap (fun k => '|' :: k) ∧
      ∀ p ∈ l, '|' ∉ p.1 ∧ keyFuel p.1 ≤ m'.store.length + 1 ∧
        DecStable m'.store p.1 p.2.2 := by
  intro kvs
  induction kvs with
  | nil =>
    intro _ m hInv hroom acc m' h
    simp only [add_vals, Prod.mk.injEq] at h
    obtain ⟨rfl, rfl⟩ := h
    exact ⟨hInv, List.prefix_refl _, by simp [size.sizeKV], [], by simp, by simp,
      by simp⟩
  | cons kv kvs ih =>
    intro hih m hInv hroom acc m' h
    simp only [add_vals] at h
    rw [sizeKV_cons] at hroom
    cases hav : add_value m kv.2 with
    | mk key m1 =>
      rw [hav] at h
      cases hrest : add_vals m1 kvs with
      | mk acc2 m2 =>
        rw [hrest] at h
        simp only [Prod.mk.injEq] at h
        obtain ⟨rfl, rfl⟩ := h
        have havs := hih kv.2 (by simp) m hInv (by omega)
        rw [hav] at havs
        obtain ⟨hInv1, hpre1, hlen1, hdec1, hform1⟩ := havs
        have hI1 : Inv m1 := hInv1
        have hL1 : m1.store.length ≤ m.store.length + size kv.2 := hlen1
        have hP1 : m.store <+: m1.store := hpre1
        have hD1 : DecStable m1.store key kv.2 := hdec1
        obtain ⟨hInv2, hpre2, hlen2, l, hl2, hacc, helem⟩ :=
          ih (fun x hx => hih x (by simp [hx])) m1 hI1 (by omega) hrest
        have hlen12 : m1.store.length ≤ m2.store.length := hpre2.length_le
        refine ⟨hInv2, hP1.trans hpre2, by rw [sizeKV_cons]; omega,
          (key, kv) :: l, by simp [hl2], by simp [hacc], ?_⟩
        intro p hp
        rcases List.mem_cons.mp hp with rfl | hp
        · rcases hform1 with ⟨hknil, -⟩ | ⟨i, hi, hiU, hkey⟩
          · have hknil2 : key = [] := hknil
            subst hknil2
            exact ⟨(by simp : '|' ∉ ([] : Str)),
              (by rw [keyFuel_nil]; omega :
                keyFuel ([] : Str) ≤ m2.store.length + 1),
              decStable_mono hD1 hpre2⟩
          · have hkey2 : key = int_to_s i := hkey
            have hi1 : i < m1.store.length := hi
            subst hkey2
            exact ⟨pipe_not_mem_int_to_s i,
              keyFuel_le_of_int_to_s hiU (by omega),
              decStable_mono hD1 hpre2⟩
        · exact helem p hp

theorem RefB_arr_nil (i : Nat) : RefB ['a','|'] i := by
  intro _ k hk
  rw [show splitC '|' ['a','|'] = [['a'], []] from rfl] at hk
  simp only [List.tail_cons, List.mem_singleton] at hk
  subst hk
  rw [keyFuel_nil]
  omega

theorem RefB_obj_nil (i : Nat) : RefB ['o','|'] i := by
  intro _ k hk
  rw [show splitC '|' ['o','|'] = [['o'], []] from rfl] at hk
  simp only [List.tail_cons, List.mem_singleton] at hk
  subst hk
  rw [keyFuel_nil]
  omega

/-- Interning a built non-empty array accumulator: shared ending of the
`Value::Array` branch of `add_value`. -/
theorem assemble_arr_sound {m2 : Memory} {acc k : Str} {m' : Memory}
    {l : List (Str × JsonValue)} (hInv2 : Inv m2)
    (hacc : acc = (l.map (·.1)).flatMap (fun k => '|' :: k))
    (helem : ∀ p ∈ l, p.1 ≠ [] ∧ '|' ∉ p.1 ∧ keyFuel p.1 ≤ m2.store.length + 1 ∧
      DecStable m2.store p.1 p.2)
    (hlne : l ≠ [])
    (hroom2 : m2.store.length + 1 ≤ U64)
    (h : get_value_key m2 ('a' :: acc) = (k, m')) :
    Inv m' ∧ m2.store <+: m'.store ∧ m'.store.length ≤ m2.store.length + 1 ∧
    ∃ i, i < m'.store.length ∧ i < U64 ∧ k = int_to_s i ∧
      DecStable m'.store k (.arr (l.map (·.2))) := by
  have haccne : acc ≠ [] := by
    subst hacc
    match l, hlne with
    | p :: l', _ => simp
  have hform : 'a' :: acc = joinC '|' (['a'] :: l.map (·.1)) := by
    rw [joinC_cons, hacc, List.singleton_append]
  have hRefB : RefB ('a' :: acc) m2.store.length := by
    intro _ kk hkk
    rw [hform] at hkk
    rw [splitC_joinC _ _ (by simp) ?pf] at hkk
    case pf =>
      intro p hp
      rcases List.mem_cons.mp hp with rfl | hp
      · simp
      · obtain ⟨q, hq, rfl⟩ := List.mem_map.mp hp
        exact (helem q hq).2.1
    simp only [List.tail_cons] at hkk
    obtain ⟨q, hq, rfl⟩ := List.mem_map.mp hkk
    exact (helem q hq).2.2.1
  obtain ⟨hInv', hpre', hlen', hsc', i, hi, rfl, hget, hrefb⟩ :=
    get_value_key_sound hInv2 hRefB h
  have hiU : i < U64 := by omega
  have htag : (['a','|'].isPrefixOf ('a' :: acc)) = true := by
    rw [two_isPrefixOf_iff]
    match l, hlne, hacc with
    | q :: l', _, hacc2 =>
      refine ⟨q.1 ++ (List.map (fun x => x.1) l').flatMap fun k => '|' :: k, ?_⟩
      rw [hacc2]
      simp
  refine ⟨hInv', hpre', hlen', i, hi, hiU, rfl, ?_⟩
  apply decSt_arr hiU (by rw [← hform]; exact hget) hlne
  intro p hp
  refine ⟨(helem p hp).1, (helem p hp).2.1, ?_, decStable_mono
    ((helem p hp).2.2.2) hpre'⟩
  apply hrefb (Or.inl htag)
  rw [hform, splitC_joinC _ _ (by simp) ?pf2]
  case pf2 =>
    intro q hq
    rcases List.mem_cons.mp hq with rfl | hq
    · simp
    · obtain ⟨r, hr, rfl⟩ := List.mem_map.mp hq
      exact (helem r hr).2.1
  simp only [List.tail_cons]
  exact List.mem_map_of_mem _ hp

/-- The main soundness theorem for `add_value` on the well-formed input
fragment, by strong induction on the node count. -/
theorem add_value_sound : ∀ (N : Nat) (o : JsonValue) (m : Memory), size o < N →
    Inv m → Good o → m.store.length + size o ≤ U64 →
    AVS m o (add_value m o) := by
  intro N
  induction N using Nat.strong_induction_on with
  | _ N ihN =>
    intro o m hsz hInv hGood hroom
    cases hGood with
    | null =>
      rw [AVS, show add_value m .null = ([], m) from rfl]
      exact ⟨hInv, List.prefix_refl _,
        by show m.store.length ≤ m.store.length + 1; omega,
        decStable_nil_key _, Or.inl ⟨rfl, rfl⟩⟩
    | bool b =>
      rw [show size (.bool b) = 1 from rfl] at hsz hroom
      cases hg : get_value_key m (encode_bool b) with
      | mk k m1 =>
        obtain ⟨hInv1, hpre1, hlen1, -, i, hi, rfl, hget, -⟩ :=
          get_value_key_sound hInv (RefB_encode_bool b m.store.length) hg
        have hiU : i < U64 := by omega
        rw [AVS, show add_value m (.bool b) = get_value_key m (encode_bool b)
          from rfl, hg]
        exact ⟨hInv1, hpre1, by show m1.store.length ≤ m.store.length + 1; omega,
          decSt_bool hiU hget, Or.inr ⟨i, hi, hiU, rfl⟩⟩
    | num n hn =>
      rw [show size (.num n) = 1 from rfl] at hsz hroom
      have henc : add_value m (.num n) = get_value_key m (encode_num n) := by
        rw [show add_value m (.num n) = get_value_key m (encode_num (rnd53 n))
          from rfl, rnd53_small hn]
      cases hg : get_value_key m (encode_num n) with
      | mk k m1 =>
        obtain ⟨hInv1, hpre1, hlen1, -, i, hi, rfl, hget, -⟩ :=
          get_value_key_sound hInv
            (show RefB (encode_num n) m.store.length from
              RefB_num_like (fmtF64i n) m.store.length) hg
        have hiU : i < U64 := by omega
        rw [AVS, henc, hg]
        exact ⟨hInv1, hpre1, by show m1.store.length ≤ m.store.length + 1; omega,
          decSt_num hiU hn hget, Or.inr ⟨i, hi, hiU, rfl⟩⟩
    | str s =>
      rw [show size (.str s) = 1 from rfl] at hsz hroom
      cases hg : get_value_key m (encode_str s) with
      | mk k m1 =>
        obtain ⟨hInv1, hpre1, hlen1, -, i, hi, rfl, hget, -⟩ :=
          get_value_key_sound hInv (RefB_encode_str s m.store.length) hg
        have hiU : i < U64 := by omega
        rw [AVS, show add_value m (.str s) = get_value_key m (encode_str s)
          from rfl, hg]
        exact ⟨hInv1, hpre1, by show m1.store.length ≤ m.store.length + 1; omega,
          decSt_str hiU hget, Or.inr ⟨i, hi, hiU, rfl⟩⟩
    | arr xs hxs =>
      rw [show size (.arr xs) = 2 + size.sizeL xs from rfl] at hsz hroom
      cases he : add_elems m xs with
      | mk acc m2 =>
        obtain ⟨hInv2, hpre2, hlen2, l, hl2, hacc, helem⟩ :=
          add_elems_sound xs
            (fun x hx m1 hI1 hr1 =>
              ihN (2 + size.sizeL xs) hsz x m1
                (by have := sizeL_mem hx; omega) hI1 (hxs x hx) hr1)
            m hInv (by omega) he
        have hav : add_value m (.arr xs) =
            get_value_key m2 (if 'a' :: acc = ['a'] then ['a','|'] else 'a' :: acc) := by
          rw [show add_value m (.arr xs) =
            (let r := add_elems m xs
             get_value_key r.2 (if 'a' :: r.1 = ['a'] then ['a','|'] else 'a' :: r.1))
            from rfl, he]
        match l, hl2, hacc, helem with
        | [], hl2, hacc, _ =>
          have hxs0 : xs = [] := by simpa using hl2.symm
          subst hxs0
          simp only [List.map_nil, List.flatMap_nil] at hacc
          subst hacc
          rw [if_pos rfl] at hav
          cases hg : get_value_key m2 ['a','|'] with
          | mk k m3 =>
            rw [hg] at hav
            obtain ⟨hInv3, hpre3, hlen3, -, i, hi, rfl, hget, -⟩ :=
              get_value_key_sound hInv2 (RefB_arr_nil m2.store.length) hg
            have hiU : i < U64 := by omega
            rw [AVS, hav]
            exact ⟨hInv3, hpre2.trans hpre3,
              by rw [show size (.arr ([] : List JsonValue)) = 2 + size.sizeL []
                from rfl]; simp [size.sizeL] at hlen2 ⊢; omega,
              decSt_arr_nil hiU hget, Or.inr ⟨i, hi, hiU, rfl⟩⟩
        | p0 :: l', hl2, hacc, helem =>
          have haccne : ('a' :: acc) ≠ ['a'] := by
            rw [hacc]
            simp
          rw [if_neg haccne] at hav
          cases hg : get_value_key m2 ('a' :: acc) with
          | mk k m3 =>
            rw [hg] at hav
            obtain ⟨hInv3, hpre3, hlen3, i, hi, hiU, rfl, hdec⟩ :=
              assemble_arr_sound hInv2 hacc helem (by simp) (by omega) hg
            rw [AVS, hav]
            rw [hl2] at hdec
            exact ⟨hInv3, hpre2.trans hpre3,
              by show m3.store.length ≤ m.store.length + (2 + size.sizeL xs)
                 omega,
              hdec, Or.inr ⟨i, hi, hiU, rfl⟩⟩
    | obj kvs hnd hcomma hvals =>
      rw [show size (.obj kvs) = 2 + kvs.length + size.sizeKV kvs from rfl]
        at hsz hroom
      match kvs, hnd, hcomma, hvals with
      | [], _, _, _ =>
        cases hg : get_value_key m ['o','|'] with
        | mk k m1 =>
          obtain ⟨hInv1, hpre1, hlen1, -, i, hi, rfl, hget, -⟩ :=
            get_value_key_sound hInv (RefB_obj_nil m.store.length) hg
          have hiU : i < U64 := by omega
          rw [AVS, show add_value m (.obj []) = get_value_key m ['o','|'] from rfl,
            hg]
          exact ⟨hInv1, hpre1,
            by rw [show size (.obj ([] : List (Str × JsonValue)))
              = 2 + ([] : List (Str × JsonValue)).length + size.sizeKV [] from rfl]
               simp [size.sizeKV] at hlen1 ⊢; omega,
            decSt_obj_nil hiU hget, Or.inr ⟨i, hi, hiU, rfl⟩⟩
      | kv0 :: kvr, hnd, hcomma, hvals =>
        cases hgs : get_schema m ((kv0 :: kvr).map (·.1)) with
        | mk sk m1 =>
          obtain ⟨hInv1, hpre1, hlen1, isk, hisk, hiskU, rfl, -, hskdec⟩ :=
            get_schema_sound hInv (by simp) hcomma
              (by rw [List.length_map]
                  have := sizeKV_len (kv0 :: kvr)
                  omega) hgs
          cases hvv : add_vals m1 (kv0 :: kvr) with
          | mk accv m2 =>
            obtain ⟨hInv2, hpre2, hlen2, l, hl2, haccv, helem⟩ :=
              add_vals_sound (kv0 :: kvr)
                (fun x hx m4 hI4 hr4 =>
                  ihN (2 + (kv0 :: kvr).length + size.sizeKV (kv0 :: kvr)) hsz
                    x m4 (by have := sizeKV_mem hx; omega) hI4 (hvals x hx) hr4)
                m1 hInv1 (by rw [List.length_map] at hlen1; omega) hvv
            have hav : add_value m (.obj (kv0 :: kvr)) =
                get_value_key m2 ('o' :: '|' :: int_to_s isk ++ accv) := by
              have h0 : add_value m (.obj (kv0 :: kvr)) =
                  get_value_key
                    (add_vals (get_schema m ((kv0 :: kvr).map (·.1))).2
                      (kv0 :: kvr)).2
                    ('o' :: '|' :: (get_schema m ((kv0 :: kvr).map (·.1))).1 ++
                      (add_vals (get_schema m ((kv0 :: kvr).map (·.1))).2
                        (kv0 :: kvr)).1) := rfl
              rw [h0]
              simp only [hgs, hvv]
            have hform : 'o' :: '|' :: int_to_s isk ++ accv
                = joinC '|' (['o'] :: int_to_s isk :: l.map (·.1)) := by
              rw [joinC_cons, haccv]
              simp [List.flatMap_cons]
            have hsplitpf : ∀ q ∈ ['o'] :: int_to_s isk :: l.map (·.1), '|' ∉ q := by
              intro q hq
              rcases List.mem_cons.mp hq with rfl | hq
              · simp
              · rcases List.mem_cons.mp hq with rfl | hq
                · exact pipe_not_mem_int_to_s isk
                · obtain ⟨r, hr, rfl⟩ := List.mem_map.mp hq
                  exact (helem r hr).1
            have hlen12 : m1.store.length ≤ m2.store.length := hpre2.length_le
            have hRefB : RefB ('o' :: '|' :: int_to_s isk ++ accv)
                m2.store.length := by
              intro _ kk hkk
              rw [hform, splitC_joinC _ _ (by simp) hsplitpf] at hkk
              simp only [List.tail_cons, List.mem_cons] at hkk
              rcases hkk with rfl | hkk
              · exact keyFuel_le_of_int_to_s hiskU (by omega)
              · obtain ⟨q, hq, rfl⟩ := List.mem_map.mp hkk
                exact (helem q hq).2.1
            cases hg : get_value_key m2 ('o' :: '|' :: int_to_s isk ++ accv) with
            | mk k m3 =>
              rw [hg] at hav
              obtain ⟨hInv3, hpre3, hlen3, -, i, hi, rfl, hget, hrefb⟩ :=
                get_value_key_sound hInv2 hRefB hg
              have hiU : i < U64 := by
                rw [List.length_map] at hlen1
                omega
              have htag : (['o','|'].isPrefixOf
                  ('o' :: '|' :: int_to_s isk ++ accv)) = true := by
                rw [two_isPrefixOf_iff]
                exact ⟨int_to_s isk ++ accv, rfl⟩
              have hbound : ∀ kk ∈ int_to_s isk :: l.map (·.1),
                  keyFuel kk ≤ i + 1 := by
                intro kk hkk
                apply hrefb (Or.inr htag)
                rw [hform, splitC_joinC _ _ (by simp) hsplitpf]
                simpa using hkk
              have hdec : DecStable m3.store (int_to_s i)
                  (.obj (l.map (·.2))) := by
                have hmapped : (l.map (·.2.1)) = (kv0 :: kvr).map (·.1) := by
                  rw [← hl2, List.map_map]
                  rfl
                refine decSt_obj hiU ?_ (int_to_s_ne_nil isk)
                  (pipe_not_mem_int_to_s isk) (hbound _ (by simp)) ?_ ?_
                · rw [← hform]
                  exact hget
                · rw [hmapped]
                  exact decStable_mono hskdec (hpre2.trans hpre3)
                · intro q hq
                  exact ⟨(helem q hq).1, hbound _ (by
                    simp only [List.mem_cons]
                    exact Or.inr (List.mem_map_of_mem _ hq)),
                    decStable_mono ((helem q hq).2.2) hpre3⟩
              rw [hl2] at hdec
              rw [AVS, hav]
              refine ⟨hInv3, (hpre1.trans hpre2).trans hpre3, ?_, hdec,
                Or.inr ⟨i, hi, hiU, rfl⟩⟩
              show m3.store.length ≤ m.store.length
                + (2 + (kv0 :: kvr).length + size.sizeKV (kv0 :: kvr))
              rw [List.length_map] at hlen1
              omega

/-- Round-trip on the well-formed fragment: compressing and then
decompressing returns the input value. -/
theorem compress_decompress (v : JsonValue) (hG : Good v)
    (hroom : size v ≤ U64) : decompress (compress v) = .ok v := by
  have h := add_value_sound (size v + 1) v make_memory (by omega) Inv_make hG
    (by show 0 + size v ≤ U64; omega)
  cases hav : add_value make_memory v with
  | mk root m' =>
    rw [hav] at h
    obtain ⟨-, -, -, hdec, hkey⟩ := h
    have hcomp : compress v = (m'.store, root) := by
      rw [show compress v =
        ((add_value make_memory v).2.store, (add_value make_memory v).1)
        from rfl, hav]
    rw [hcomp]
    rw [show decompress (m'.store, root)
      = decodeF (m'.store.length + 2) m'.store root from rfl]
    rcases hkey with ⟨hroot, hv⟩ | ⟨i, hi, hiU, hroot⟩
    · subst hroot
      subst hv
      exact hdec m'.store _ (List.prefix_refl _) (by rw [keyFuel_nil]; omega)
    · have hi' : i < m'.store.length := hi
      subst hroot
      exact hdec m'.store _ (List.prefix_refl _)
        (by rw [keyFuel_int_to_s hiU]; omega)

/-! ## The weak store invariant

Unlike `Inv`, `WInv` is maintained by `add_value` on EVERY input (also
symbolic floats and objects with comma/duplicate keys): the key counter
tracks the store length and both caches hold only keys of the form
`int_to_s i` for a store index `i < U64`.  It yields the key-validity
invariant with no well-formedness hypothesis on the values. -/

/-- The weak store invariant. -/
structure WInv (m : Memory) : Prop where
  count : m.key_count = m.store.length
  vc : ∀ p ∈ m.value_cache, ∃ i, i < m.store.length ∧ i < U64 ∧ p.2 = int_to_s i
  sc : ∀ p ∈ m.schema_cache, ∃ i, i < m.store.length ∧ i < U64 ∧ p.2 = int_to_s i

theorem WInv_make : WInv make_memory := by
  constructor <;> simp [make_memory]

/-- Weak counterpart of `get_value_key_sound`: the returned key is a
valid store index, with no hypothesis on the interned string. -/
theorem get_value_key_weak {m : Memory} {s k : Str} {m' : Memory} (hW : WInv m)
    (hroom : m.store.length + 1 ≤ U64)
    (h : get_value_key m s = (k, m')) :
    WInv m' ∧ m.store <+: m'.store ∧ m'.store.length ≤ m.store.length + 1 ∧
    ∃ i, i < m'.store.length ∧ i < U64 ∧ k = int_to_s i := by
  unfold get_value_key at h
  cases hl : m.value_cache.lookup s with
  | some ck =>
    simp only [hl, Prod.mk.injEq] at h
    obtain ⟨rfl, rfl⟩ := h
    obtain ⟨l₁, l₂, hsplit, -⟩ := List.lookup_eq_some_iff.mp hl
    have hmem : (s, ck) ∈ m.value_cache := by
      rw [hsplit]
      simp
    obtain ⟨i, hi, hiU, hkey⟩ := hW.vc (s, ck) hmem
    exact ⟨hW, List.prefix_refl _, by omega, i, hi, hiU, hkey⟩
  | none =>
    simp only [hl, Prod.mk.injEq] at h
    obtain ⟨rfl, rfl⟩ := h
    have hpre : m.store <+: m.store ++ [s] := ⟨[s], rfl⟩
    refine ⟨?_, hpre, by simp, m.key_count, by rw [hW.count]; simp,
      by rw [hW.count]; omega, rfl⟩
    constructor
    · simp [hW.count]
    · intro p hp
      rw [List.mem_cons] at hp
      rcases hp with rfl | hp
      · exact ⟨m.key_count, by rw [hW.count]; simp, by rw [hW.count]; omega, rfl⟩
      · obtain ⟨i, hi, hiU, hkey⟩ := hW.vc p hp
        exact ⟨i, by simp; omega, hiU, hkey⟩
    · intro p hp
      obtain ⟨i, hi, hiU, hkey⟩ := hW.sc p hp
      exact ⟨i, by simp; omega, hiU, hkey⟩

/-- Weak counterpart of `intern_go_sound`. -/
theorem intern_go_weak : ∀ (ks : List Str) (m : Memory), WInv m →
    m.store.length + ks.length ≤ U64 →
    ∀ {acc : Str} {m' : Memory}, intern_str_arr.go m ks = (acc, m') →
    WInv m' ∧ m.store <+: m'.store ∧
    m'.store.length ≤ m.store.length + ks.length := by
  intro ks
  induction ks with
  | nil =>
    intro m hW hroom acc m' h
    simp only [intern_str_arr.go, Prod.mk.injEq] at h
    obtain ⟨rfl, rfl⟩ := h
    exact ⟨hW, List.prefix_refl _, by omega⟩
  | cons k rest ih =>
    intro m hW hroom acc m' h
    rw [List.length_cons] at hroom
    simp only [intern_str_arr.go] at h
    cases hg : get_value_key m (encode_str k) with
    | mk key m1 =>
      rw [hg] at h
      cases hrest : intern_str_arr.go m1 rest with
      | mk acc2 m2 =>
        rw [hrest] at h
        simp only [Prod.mk.injEq] at h
        obtain ⟨rfl, rfl⟩ := h
        obtain ⟨hW1, hpre1, hlen1, -⟩ := get_value_key_weak hW (by omega) hg
        obtain ⟨hW2, hpre2, hlen2⟩ := ih m1 hW1 (by omega) hrest
        exact ⟨hW2, hpre1.trans hpre2, by rw [List.length_cons]; omega⟩

/-- Weak counterpart of `intern_str_arr_sound`. -/
theorem intern_str_arr_weak {m : Memory} {ks : List Str} {k : Str} {m' : Memory}
    (hW : WInv m) (hroom : m.store.length + ks.length + 1 ≤ U64)
    (h : intern_str_arr m ks = (k, m')) :
    WInv m' ∧ m.store <+: m'.store ∧
    m'.store.length ≤ m.store.length + ks.length + 1 ∧
    ∃ i, i < m'.store.length ∧ i < U64 ∧ k = int_to_s i := by
  unfold intern_str_arr at h
  cases hgo : intern_str_arr.go m ks with
  | mk acc m2 =>
    simp only [hgo] at h
    obtain ⟨hW2, hpre2, hlen2⟩ := intern_go_weak ks m hW (by omega) hgo
    obtain ⟨hW', hpre', hlen', i, hi, hiU, hk⟩ :=
      get_value_key_weak hW2 (by omega) h
    exact ⟨hW', hpre2.trans hpre', by omega, i, hi, hiU, hk⟩

/-- Weak counterpart of `get_schema_sound`: no comma-freeness needed. -/
theorem get_schema_weak {m : Memory} {keys : List Str} {k : Str} {m' : Memory}
    (hW : WInv m) (hroom : m.store.length + keys.length + 1 ≤ U64)
    (h : get_schema m keys = (k, m')) :
    WInv m' ∧ m.store <+: m'.store ∧
    m'.store.length ≤ m.store.length + keys.length + 1 ∧
    ∃ i, i < m'.store.length ∧ i < U64 ∧ k = int_to_s i := by
  unfold get_schema at h
  rw [show CONFIG.sort_key = false from rfl] at h
  simp only [Bool.false_eq_true, if_false] at h
  cases hl : m.schema_cache.lookup (joinC ',' keys) with
  | some sk =>
    simp only [hl, Prod.mk.injEq] at h
    obtain ⟨rfl, rfl⟩ := h
    obtain ⟨l₁, l₂, hsplit, -⟩ := List.lookup_eq_some_iff.mp hl
    have hmem : (joinC ',' keys, sk) ∈ m.schema_cache := by
      rw [hsplit]
      simp
    obtain ⟨i, hi, hiU, hkey⟩ := hW.sc _ hmem
    exact ⟨hW, List.prefix_refl _, by omega, i, hi, hiU, hkey⟩
  | none =>
    cases hi2 : intern_str_arr m keys with
    | mk key_id m1 =>
      simp only [hl, hi2, Prod.mk.injEq] at h
      obtain ⟨rfl, rfl⟩ := h
      obtain ⟨hW1, hpre1, hlen1, i, hi, hiU, rfl⟩ :=
        intern_str_arr_weak hW hroom hi2
      refine ⟨?_, hpre1, hlen1, i, hi, hiU, rfl⟩
      constructor
      · exact hW1.count
      · exact hW1.vc
      · intro p hp
        rcases List.mem_cons.mp hp with rfl | hp
        · exact ⟨i, hi, hiU, rfl⟩
        · exact hW1.sc p hp

/-- Weak counterpart of `add_elems_sound`: only the memory evolution. -/
theorem add_elems_weak : ∀ (xs : List JsonValue),
    (∀ x ∈ xs, ∀ m1 : Memory, WInv m1 → m1.store.length + size x ≤ U64 →
      ∀ (k : Str) (m2 : Memory), add_value m1 x = (k, m2) →
      WInv m2 ∧ m1.store <+: m2.store ∧
      m2.store.length ≤ m1.store.length + size x) →
    ∀ (m : Memory), WInv m → m.store.length + size.sizeL xs ≤ U64 →
    ∀ {acc : Str} {m' : Memory}, add_elems m xs = (acc, m') →
    WInv m' ∧ m.store <+: m'.store ∧
    m'.store.length ≤ m.store.length + size.sizeL xs := by
  intro xs
  induction xs with
  | nil =>
    intro _ m hW hroom acc m' h
    simp only [add_elems, Prod.mk.injEq] at h
    obtain ⟨rfl, rfl⟩ := h
    exact ⟨hW, List.prefix_refl _, by simp [size.sizeL]⟩
  | cons v vs ih =>
    intro hih m hW hroom acc m' h
    simp only [add_elems] at h
    rw [sizeL_cons] at hroom
    by_cases hv : v = JsonValue.null
    · rw [if_pos hv] at h
      cases hrest : add_elems m vs with
      | mk acc2 m2 =>
        rw [hrest] at h
        simp only [Prod.mk.injEq] at h
        obtain ⟨rfl, rfl⟩ := h
        obtain ⟨hW2, hpre2, hlen2⟩ :=
          ih (fun x hx => hih x (List.mem_cons_of_mem v hx)) m hW (by omega) hrest
        exact ⟨hW2, hpre2, by rw [sizeL_cons]; omega⟩
    · rw [if_neg hv] at h
      cases hav : add_value m v with
      | mk key m1 =>
        rw [hav] at h
        cases hrest : add_elems m1 vs with
        | mk acc2 m2 =>
          rw [hrest] at h
          simp only [Prod.mk.injEq] at h
          obtain ⟨rfl, rfl⟩ := h
          obtain ⟨hW1, hpre1, hlen1⟩ := hih v (by simp) m hW (by omega) _ _ hav
          obtain ⟨hW2, hpre2, hlen2⟩ :=
            ih (fun x hx => hih x (List.mem_cons_of_mem v hx)) m1 hW1
              (by omega) hrest
          exact ⟨hW2, hpre1.trans hpre2, by rw [sizeL_cons]; omega⟩

/-- Weak counterpart of `add_vals_sound`: only the memory evolution. -/
theorem add_vals_weak : ∀ (kvs : List (Str × JsonValue)),
    (∀ x ∈ kvs.map (·.2), ∀ m1 : Memory, WInv m1 →
      m1.store.length + size x ≤ U64 →
      ∀ (k : Str) (m2 : Memory), add_value m1 x = (k, m2) →
      WInv m2 ∧ m1.store <+: m2.store ∧
      m2.store.length ≤ m1.store.length + size x) →
    ∀ (m : Memory), WInv m → m.store.length + size.sizeKV kvs ≤ U64 →
    ∀ {acc : Str} {m' : Memory}, add_vals m kvs = (acc, m') →
    WInv m' ∧ m.store <+: m'.store ∧
    m'.store.length ≤ m.store.length + size.sizeKV kvs := by
  intro kvs
  induction kvs with
  | nil =>
    intro _ m hW hroom acc m' h
    simp only [add_vals, Prod.mk.injEq] at h
    obtain ⟨rfl, rfl⟩ := h
    exact ⟨hW, List.prefix_refl _, by simp [size.sizeKV]⟩
  | cons kv kvr ih =>
    intro hih m hW hroom acc m' h
    simp only [add_vals] at h
    rw [sizeKV_cons] at hroom
    cases hav : add_value m kv.2 with
    | mk key m1 =>
      rw [hav] at h
      cases hrest : add_vals m1 kvr with
      | mk acc2 m2 =>
        rw [hrest] at h
        simp only [Prod.mk.injEq] at h
        obtain ⟨rfl, rfl⟩ := h
        obtain ⟨hW1, hpre1, hlen1⟩ :=
          hih kv.2 (by simp) m hW (by omega) _ _ hav
        obtain ⟨hW2, hpre2, hlen2⟩ :=
          ih (fun x hx => hih x (List.mem_cons_of_mem _ hx)) m1 hW1
            (by omega) hrest
        exact ⟨hW2, hpre1.trans hpre2, by rw [sizeKV_cons]; omega⟩

/-- Weak soundness of `add_value` on arbitrary inputs: the weak invariant
is preserved, the store only grows (boundedly), and the returned key is
`""` or a valid store index. -/
theorem add_value_weak : ∀ (N : Nat) (o : JsonValue) (m : Memory), size o < N →
    WInv m → m.store.length + size o ≤ U64 →
    ∀ {k : Str} {m' : Memory}, add_value m o = (k, m') →
    WInv m' ∧ m.store <+: m'.store ∧
    m'.store.length ≤ m.store.length + size o ∧
    (k = [] ∨ ∃ i, i < m'.store.length ∧ i < U64 ∧ k = int_to_s i) := by
  intro N
  induction N using Nat.strong_induction_on with
  | _ N ihN =>
    intro o m hsz hW hroom k m' h
    cases o with
    | null =>
      rw [show add_value m .null = ([], m) from rfl, Prod.mk.injEq] at h
      obtain ⟨rfl, rfl⟩ := h
      exact ⟨hW, List.prefix_refl _,
        by show m.store.length ≤ m.store.length + 1; omega, Or.inl rfl⟩
    | bool b =>
      rw [show size (.bool b) = 1 from rfl] at hroom
      rw [show add_value m (.bool b) = get_value_key m (encode_bool b)
        from rfl] at h
      obtain ⟨hW', hpre', hlen', i, hi, hiU, hk⟩ :=
        get_value_key_weak hW (by omega) h
      exact ⟨hW', hpre', hlen', Or.inr ⟨i, hi, hiU, hk⟩⟩
    | num n =>
      rw [show size (.num n) = 1 from rfl] at hroom
      rw [show add_value m (.num n) = get_value_key m (encode_num (rnd53 n))
        from rfl] at h
      obtain ⟨hW', hpre', hlen', i, hi, hiU, hk⟩ :=
        get_value_key_weak hW (by omega) h
      exact ⟨hW', hpre', hlen', Or.inr ⟨i, hi, hiU, hk⟩⟩
    | floatNum s =>
      rw [show size (.floatNum s) = 1 from rfl] at hroom
      rw [show add_value m (.floatNum s) = get_value_key m ('n' :: '|' :: s)
        from rfl] at h
      obtain ⟨hW', hpre', hlen', i, hi, hiU, hk⟩ :=
        get_value_key_weak hW (by omega) h
      exact ⟨hW', hpre', hlen', Or.inr ⟨i, hi, hiU, hk⟩⟩
    | str s =>
      rw [show size (.str s) = 1 from rfl] at hroom
      rw [show add_value m (.str s) = get_value_key m (encode_str s)
        from rfl] at h
      obtain ⟨hW', hpre', hlen', i, hi, hiU, hk⟩ :=
        get_value_key_weak hW (by omega) h
      exact ⟨hW', hpre', hlen', Or.inr ⟨i, hi, hiU, hk⟩⟩
    | arr xs =>
      rw [show size (.arr xs) = 2 + size.sizeL xs from rfl] at hsz hroom
      have h0 : add_value m (.arr xs) =
          get_value_key (add_elems m xs).2
            (if 'a' :: (add_elems m xs).1 = ['a'] then ['a','|']
             else 'a' :: (add_elems m xs).1) := rfl
      rw [h0] at h
      cases he : add_elems m xs with
      | mk acc m2 =>
        simp only [he] at h
        obtain ⟨hW2, hpre2, hlen2⟩ :=
          add_elems_weak xs
            (fun x hx m1 hW1 hr1 k2 m2 h1 =>
              have r := ihN (2 + size.sizeL xs) hsz x m1
                (by have := sizeL_mem hx; omega) hW1 hr1 h1
              ⟨r.1, r.2.1, r.2.2.1⟩)
            m hW (by omega) he
        obtain ⟨hW', hpre', hlen', i, hi, hiU, hk⟩ :=
          get_value_key_weak hW2 (by omega) h
        refine ⟨hW', hpre2.trans hpre', ?_, Or.inr ⟨i, hi, hiU, hk⟩⟩
        show m'.store.length ≤ m.store.length + (2 + size.sizeL xs)
        omega
    | obj kvs =>
      rw [show size (.obj kvs) = 2 + kvs.length + size.sizeKV kvs from rfl]
        at hsz hroom
      cases kvs with
      | nil =>
        rw [show add_value m (.obj []) = get_value_key m ['o','|'] from rfl] at h
        obtain ⟨hW', hpre', hlen', i, hi, hiU, hk⟩ :=
          get_value_key_weak hW (by omega) h
        refine ⟨hW', hpre', ?_, Or.inr ⟨i, hi, hiU, hk⟩⟩
        show m'.store.length ≤ m.store.length
          + (2 + ([] : List (Str × JsonValue)).length + size.sizeKV [])
        simp only [List.length_nil, size.sizeKV]
        omega
      | cons kv0 kvr =>
        have h0 : add_value m (.obj (kv0 :: kvr)) =
            get_value_key
              (add_vals (get_schema m ((kv0 :: kvr).map (·.1))).2 (kv0 :: kvr)).2
              ('o' :: '|' :: (get_schema m ((kv0 :: kvr).map (·.1))).1 ++
                (add_vals (get_schema m ((kv0 :: kvr).map (·.1))).2
                  (kv0 :: kvr)).1) := rfl
        rw [h0] at h
        cases hgs : get_schema m ((kv0 :: kvr).map (·.1)) with
        | mk sk m1 =>
          simp only [hgs] at h
          obtain ⟨hW1, hpre1, hlen1, -⟩ :=
            get_schema_weak hW
              (by rw [List.length_map]
                  have := sizeKV_len (kv0 :: kvr)
                  omega) hgs
          rw [List.length_map] at hlen1
          cases hvv : add_vals m1 (kv0 :: kvr) with
          | mk accv m2 =>
            simp only [hvv] at h
            obtain ⟨hW2, hpre2, hlen2⟩ :=
              add_vals_weak (kv0 :: kvr)
                (fun x hx m4 hW4 hr4 k4 m5 h4 =>
                  have r := ihN
                    (2 + (kv0 :: kvr).length + size.sizeKV (kv0 :: kvr)) hsz x
                    m4 (by have := sizeKV_mem hx; omega) hW4 hr4 h4
                  ⟨r.1, r.2.1, r.2.2.1⟩)
                m1 hW1 (by omega) hvv
            obtain ⟨hW', hpre', hlen', i, hi, hiU, hk⟩ :=
              get_value_key_weak hW2 (by omega) h
            refine ⟨hW', (hpre1.trans hpre2).trans hpre',
              ?_, Or.inr ⟨i, hi, hiU, hk⟩⟩
            show m'.store.length ≤ m.store.length
              + (2 + (kv0 :: kvr).length + size.sizeKV (kv0 :: kvr))
            omega

/-! ## Schema-cache evolution

The schema cache only ever grows by consing, and an entry is inserted
only when its joined key string is absent, so the cache's key strings stay
distinct.  This gives the sharing property: one cache entry per key set. -/

/-- Cache evolution from `m` to `m'`: the old cache is a suffix of the new
one, and distinctness of the cached key strings is preserved. -/
def SCEvo (m m' : Memory) : Prop :=
  m.schema_cache <:+ m'.schema_cache ∧
  ((m.schema_cache.map (·.1)).Nodup → (m'.schema_cache.map (·.1)).Nodup)

theorem SCEvo_refl (m : Memory) : SCEvo m m :=
  ⟨List.suffix_refl _, fun h => h⟩

theorem SCEvo_trans {m1 m2 m3 : Memory} (h1 : SCEvo m1 m2) (h2 : SCEvo m2 m3) :
    SCEvo m1 m3 :=
  ⟨h1.1.trans h2.1, fun h => h2.2 (h1.2 h)⟩

theorem SCEvo_of_eq {m m' : Memory} (h : m'.schema_cache = m.schema_cache) :
    SCEvo m m' :=
  ⟨h ▸ List.suffix_refl _, fun hd => h ▸ hd⟩

/-- A key string that `lookup` misses is not among the cached keys. -/
theorem lookup_none_not_key : ∀ {l : List (Str × Str)} {a : Str},
    l.lookup a = none → a ∉ l.map (·.1) := by
  intro l
  induction l with
  | nil =>
    intro a h
    simp
  | cons p l ih =>
    intro a h
    rw [List.lookup_cons] at h
    simp only [List.map_cons, List.mem_cons]
    split at h
    · exact absurd h (by simp)
    · rename_i hne
      intro hc
      rcases hc with hc | hc
      · rw [hc] at hne
        simp at hne
      · exact (ih h) hc

/-- With distinct cached keys, a present key is counted exactly once. -/
theorem countP_fst_eq_one : ∀ {l : List (Str × Str)} {s : Str},
    (l.map (·.1)).Nodup → (∃ v, (s, v) ∈ l) →
    l.countP (fun p => decide (p.1 = s)) = 1 := by
  intro l
  induction l with
  | nil =>
    intro s _ hmem
    obtain ⟨v, hv⟩ := hmem
    simp at hv
  | cons p l ih =>
    intro s hnd hmem
    rw [List.map_cons, List.nodup_cons] at hnd
    rw [List.countP_cons]
    by_cases hs : p.1 = s
    · have hz : l.countP (fun q => decide (q.1 = s)) = 0 := by
        rw [List.countP_eq_zero]
        intro q hq
        simp only [decide_eq_true_eq]
        intro hc
        apply hnd.1
        rw [hs, ← hc]
        exact List.mem_map_of_mem _ hq
      rw [hz, if_pos (by simp [hs])]
    · obtain ⟨v, hv⟩ := hmem
      rcases List.mem_cons.mp hv with rfl | hv
      · exact absurd rfl hs
      · rw [ih hnd.2 ⟨v, hv⟩, if_neg (by simp [hs])]

/-- `get_value_key` never touches the schema cache. -/
theorem get_value_key_scache {m : Memory} {s k : Str} {m' : Memory}
    (h : get_value_key m s = (k, m')) : m'.schema_cache = m.schema_cache := by
  unfold get_value_key at h
  cases hl : m.value_cache.lookup s with
  | some ck =>
    simp only [hl, Prod.mk.injEq] at h
    obtain ⟨rfl, rfl⟩ := h
    rfl
  | none =>
    simp only [hl, Prod.mk.injEq] at h
    obtain ⟨rfl, rfl⟩ := h
    rfl

theorem intern_go_scache : ∀ (ks : List Str) (m : Memory) {acc : Str}
    {m' : Memory}, intern_str_arr.go m ks = (acc, m') →
    m'.schema_cache = m.schema_cache := by
  intro ks
  induction ks with
  | nil =>
    intro m acc m' h
    simp only [intern_str_arr.go, Prod.mk.injEq] at h
    obtain ⟨rfl, rfl⟩ := h
    rfl
  | cons k rest ih =>
    intro m acc m' h
    simp only [intern_str_arr.go] at h
    cases hg : get_value_key m (encode_str k) with
    | mk key m1 =>
      rw [hg] at h
      cases hrest : intern_str_arr.go m1 rest with
      | mk acc2 m2 =>
        rw [hrest] at h
        simp only [Prod.mk.injEq] at h
        obtain ⟨rfl, rfl⟩ := h
        rw [ih m1 hrest, get_value_key_scache hg]

theorem intern_str_arr_scache {m : Memory} {ks : List Str} {k : Str}
    {m' : Memory} (h : intern_str_arr m ks = (k, m')) :
    m'.schema_cache = m.schema_cache := by
  unfold intern_str_arr at h
  cases hgo : intern_str_arr.go m ks with
  | mk acc m2 =>
    simp only [hgo] at h
    rw [get_value_key_scache h, intern_go_scache ks m hgo]

/-- `get_schema` leaves the cache alone on a hit and conses exactly one
entry, keyed by the joined key list, on a miss. -/
theorem get_schema_scache {m : Memory} {keys : List Str} {k : Str}
    {m' : Memory} (h : get_schema m keys = (k, m')) :
    m'.schema_cache = m.schema_cache ∨
    (m.schema_cache.lookup (joinC ',' keys) = none ∧
     m'.schema_cache = (joinC ',' keys, k) :: m.schema_cache) := by
  unfold get_schema at h
  rw [show CONFIG.sort_key = false from rfl] at h
  simp only [Bool.false_eq_true, if_false] at h
  cases hl : m.schema_cache.lookup (joinC ',' keys) with
  | some sk =>
    simp only [hl, Prod.mk.injEq] at h
    obtain ⟨rfl, rfl⟩ := h
    exact Or.inl rfl
  | none =>
    cases hi2 : intern_str_arr m keys with
    | mk key_id m1 =>
      simp only [hl, hi2, Prod.mk.injEq] at h
      obtain ⟨rfl, rfl⟩ := h
      exact Or.inr ⟨rfl, by rw [intern_str_arr_scache hi2]⟩

theorem get_schema_scevo {m : Memory} {keys : List Str} {k : Str}
    {m' : Memory} (h : get_schema m keys = (k, m')) : SCEvo m m' := by
  rcases get_schema_scache h with he | ⟨hl, he⟩
  · exact SCEvo_of_eq he
  · refine ⟨he ▸ ⟨[(joinC ',' keys, k)], rfl⟩, fun hd => ?_⟩
    rw [he, List.map_cons, List.nodup_cons]
    exact ⟨lookup_none_not_key hl, hd⟩

/-- `add_value` (and its loops) only grow the schema cache, keeping the
cached key strings distinct. -/
theorem add_value_scevo : ∀ (N : Nat) (o : JsonValue) (m : Memory),
    size o < N → ∀ {k : Str} {m' : Memory}, add_value m o = (k, m') →
    SCEvo m m' := by
  intro N
  induction N using Nat.strong_induction_on with
  | _ N ihN =>
    have helems : ∀ (xs : List JsonValue), (size.sizeL xs < N) →
        ∀ (m : Memory) {acc : Str} {m' : Memory},
        (∀ x ∈ xs, ∀ m1 : Memory, ∀ {k : Str} {m2 : Memory},
          add_value m1 x = (k, m2) → SCEvo m1 m2) →
        add_elems m xs = (acc, m') → SCEvo m m' := by
      intro xs
      induction xs with
      | nil =>
        intro _ m acc m' _ h
        simp only [add_elems, Prod.mk.injEq] at h
        obtain ⟨rfl, rfl⟩ := h
        exact SCEvo_refl m
      | cons v vs ih =>
        intro hszL m acc m' hih h
        rw [sizeL_cons] at hszL
        simp only [add_elems] at h
        by_cases hv : v = JsonValue.null
        · rw [if_pos hv] at h
          cases hrest : add_elems m vs with
          | mk acc2 m2 =>
            rw [hrest] at h
            simp only [Prod.mk.injEq] at h
            obtain ⟨rfl, rfl⟩ := h
            exact ih (by omega) m
              (fun x hx => hih x (List.mem_cons_of_mem v hx)) hrest
        · rw [if_neg hv] at h
          cases hav : add_value m v with
          | mk key m1 =>
            rw [hav] at h
            cases hrest : add_elems m1 vs with
            | mk acc2 m2 =>
              rw [hrest] at h
              simp only [Prod.mk.injEq] at h
              obtain ⟨rfl, rfl⟩ := h
              exact SCEvo_trans (hih v (by simp) m hav)
                (ih (by omega) m1
                  (fun x hx => hih x (List.mem_cons_of_mem v hx)) hrest)
    have hvals : ∀ (kvs : List (Str × JsonValue)), (size.sizeKV kvs < N) →
        ∀ (m : Memory) {acc : Str} {m' : Memory},
        (∀ x ∈ kvs.map (·.2), ∀ m1 : Memory, ∀ {k : Str} {m2 : Memory},
          add_value m1 x = (k, m2) → SCEvo m1 m2) →
        add_vals m kvs = (acc, m') → SCEvo m m' := by
      intro kvs
      induction kvs with
      | nil =>
        intro _ m acc m' _ h
        simp only [add_vals, Prod.mk.injEq] at h
        obtain ⟨rfl, rfl⟩ := h
        exact SCEvo_refl m
      | cons kv kvr ih =>
        intro hszKV m acc m' hih h
        rw [sizeKV_cons] at hszKV
        simp only [add_vals] at h
        cases hav : add_value m kv.2 with
        | mk key m1 =>
          rw [hav] at h
          cases hrest : add_vals m1 kvr with
          | mk acc2 m2 =>
            rw [hrest] at h
            simp only [Prod.mk.injEq] at h
            obtain ⟨rfl, rfl⟩ := h
            exact SCEvo_trans (hih kv.2 (by simp) m hav)
              (ih (by omega) m1
                (fun x hx => hih x (List.mem_cons_of_mem _ hx)) hrest)
    intro o m hsz k m' h
    cases o with
    | null =>
      rw [show add_value m .null = ([], m) from rfl, Prod.mk.injEq] at h
      obtain ⟨rfl, rfl⟩ := h
      exact SCEvo_refl m
    | bool b =>
      exact SCEvo_of_eq (get_value_key_scache h)
    | num n =>
      exact SCEvo_of_eq (get_value_key_scache h)
    | floatNum s =>
      exact SCEvo_of_eq (get_value_key_scache h)
    | str s =>
      exact SCEvo_of_eq (get_value_key_scache h)
    | arr xs =>
      rw [show size (.arr xs) = 2 + size.sizeL xs from rfl] at hsz
      have h0 : add_value m (.arr xs) =
          get_value_key (add_elems m xs).2
            (if 'a' :: (add_elems m xs).1 = ['a'] then ['a','|']
             else 'a' :: (add_elems m xs).1) := rfl
      rw [h0] at h
      cases he : add_elems m xs with
      | mk acc m2 =>
        simp only [he] at h
        exact SCEvo_trans
          (helems xs (by omega) m
            (fun x hx m1 k2 m3 h1 =>
              ihN (size x + 1) (by have := sizeL_mem hx; omega) x m1
                (by omega) h1) he)
          (SCEvo_of_eq (get_value_key_scache h))
    | obj kvs =>
      rw [show size (.obj kvs) = 2 + kvs.length + size.sizeKV kvs from rfl]
        at hsz
      cases kvs with
      | nil =>
        rw [show add_value m (.obj []) = get_value_key m ['o','|'] from rfl] at h
        exact SCEvo_of_eq (get_value_key_scache h)
      | cons kv0 kvr =>
        have h0 : add_value m (.obj (kv0 :: kvr)) =
            get_value_key
              (add_vals (get_schema m ((kv0 :: kvr).map (·.1))).2 (kv0 :: kvr)).2
              ('o' :: '|' :: (get_schema m ((kv0 :: kvr).map (·.1))).1 ++
                (add_vals (get_schema m ((kv0 :: kvr).map (·.1))).2
                  (kv0 :: kvr)).1) := rfl
        rw [h0] at h
        cases hgs : get_schema m ((kv0 :: kvr).map (·.1)) with
        | mk sk m1 =>
          simp only [hgs] at h
          cases hvv : add_vals m1 (kv0 :: kvr) with
          | mk accv m2 =>
            simp only [hvv] at h
            exact SCEvo_trans (get_schema_scevo hgs)
              (SCEvo_trans
                (hvals (kv0 :: kvr) (by omega) m1
                  (fun x hx m4 k4 m5 h4 =>
                    ihN (size x + 1) (by have := sizeKV_mem hx; omega) x m4
                      (by omega) h4) hvv)
                (SCEvo_of_eq (get_value_key_scache h)))

theorem add_elems_scevo : ∀ (xs : List JsonValue) (m : Memory) {acc : Str}
    {m' : Memory}, add_elems m xs = (acc, m') → SCEvo m m' := by
  intro xs
  induction xs with
  | nil =>
    intro m acc m' h
    simp only [add_elems, Prod.mk.injEq] at h
    obtain ⟨rfl, rfl⟩ := h
    exact SCEvo_refl m
  | cons v vs ih =>
    intro m acc m' h
    simp only [add_elems] at h
    by_cases hv : v = JsonValue.null
    · rw [if_pos hv] at h
      cases hrest : add_elems m vs with
      | mk acc2 m2 =>
        rw [hrest] at h
        simp only [Prod.mk.injEq] at h
        obtain ⟨rfl, rfl⟩ := h
        exact ih m hrest
    · rw [if_neg hv] at h
      cases hav : add_value m v with
      | mk key m1 =>
        rw [hav] at h
        cases hrest : add_elems m1 vs with
        | mk acc2 m2 =>
          rw [hrest] at h
          simp only [Prod.mk.injEq] at h
          obtain ⟨rfl, rfl⟩ := h
          exact SCEvo_trans (add_value_scevo (size v + 1) v m (by omega) hav)
            (ih m1 hrest)

theorem add_vals_scevo : ∀ (kvs : List (Str × JsonValue)) (m : Memory)
    {acc : Str} {m' : Memory}, add_vals m kvs = (acc, m') → SCEvo m m' := by
  intro kvs
  induction kvs with
  | nil =>
    intro m acc m' h
    simp only [add_vals, Prod.mk.injEq] at h
    obtain ⟨rfl, rfl⟩ := h
    exact SCEvo_refl m
  | cons kv kvr ih =>
    intro m acc m' h
    simp only [add_vals] at h
    cases hav : add_value m kv.2 with
    | mk key m1 =>
      rw [hav] at h
      cases hrest : add_vals m1 kvr with
      | mk acc2 m2 =>
        rw [hrest] at h
        simp only [Prod.mk.injEq] at h
        obtain ⟨rfl, rfl⟩ := h
        exact SCEvo_trans
          (add_value_scevo (size kv.2 + 1) kv.2 m (by omega) hav) (ih m1 hrest)

/-- After `get_schema`, the cache holds an entry for the joined key list
(the found one on a hit, the fresh one on a miss). -/
theorem get_schema_mem {m : Memory} {keys : List Str} {k : Str} {m' : Memory}
    (h : get_schema m keys = (k, m')) :
    ∃ sk, (joinC ',' keys, sk) ∈ m'.schema_cache := by
  unfold get_schema at h
  rw [show CONFIG.sort_key = false from rfl] at h
  simp only [Bool.false_eq_true, if_false] at h
  cases hl : m.schema_cache.lookup (joinC ',' keys) with
  | some sk =>
    simp only [hl, Prod.mk.injEq] at h
    obtain ⟨rfl, rfl⟩ := h
    obtain ⟨l₁, l₂, hsplit, -⟩ := List.lookup_eq_some_iff.mp hl
    exact ⟨sk, by rw [hsplit]; simp⟩
  | none =>
    cases hi2 : intern_str_arr m keys with
    | mk key_id m1 =>
      simp only [hl, hi2, Prod.mk.injEq] at h
      obtain ⟨rfl, rfl⟩ := h
      exact ⟨key_id, by simp⟩

/-- Replaying the compression of an array whose first element is a
non-empty object: the final schema cache registers that object's key list
and keeps its cached key strings distinct. -/
theorem compress_first_obj_schema {kv00 : Str × JsonValue}
    {kvr0 : List (Str × JsonValue)} {rest : List JsonValue}
    {k : Str} {mf : Memory}
    (h : add_value make_memory (.arr (.obj (kv00 :: kvr0) :: rest)) = (k, mf)) :
    (∃ sk, (joinC ',' ((kv00 :: kvr0).map (·.1)), sk) ∈ mf.schema_cache) ∧
    (mf.schema_cache.map (·.1)).Nodup := by
  have h0 : add_value make_memory (.arr (.obj (kv00 :: kvr0) :: rest)) =
      get_value_key (add_elems make_memory (.obj (kv00 :: kvr0) :: rest)).2
        (if 'a' :: (add_elems make_memory (.obj (kv00 :: kvr0) :: rest)).1
            = ['a'] then ['a','|']
         else 'a' :: (add_elems make_memory (.obj (kv00 :: kvr0) :: rest)).1)
      := rfl
  rw [h0] at h
  cases hav0 : add_value make_memory (.obj (kv00 :: kvr0)) with
  | mk k0 mA =>
    cases hrest : add_elems mA rest with
    | mk accR mB =>
      have he : add_elems make_memory (.obj (kv00 :: kvr0) :: rest)
          = ('|' :: k0 ++ accR, mB) := by
        simp only [add_elems]
        rw [if_neg (by simp), hav0, hrest]
      simp only [he] at h
      have h1 : add_value make_memory (.obj (kv00 :: kvr0)) =
          get_value_key
            (add_vals (get_schema make_memory ((kv00 :: kvr0).map (·.1))).2
              (kv00 :: kvr0)).2
            ('o' :: '|' ::
              (get_schema make_memory ((kv00 :: kvr0).map (·.1))).1 ++
              (add_vals (get_schema make_memory ((kv00 :: kvr0).map (·.1))).2
                (kv00 :: kvr0)).1) := rfl
      rw [h1] at hav0
      cases hgs : get_schema make_memory ((kv00 :: kvr0).map (·.1)) with
      | mk sk mS =>
        simp only [hgs] at hav0
        cases hvv : add_vals mS (kv00 :: kvr0) with
        | mk accv mV =>
          simp only [hvv] at hav0
          obtain ⟨sk', hmemS⟩ := get_schema_mem hgs
          have hndS : (mS.schema_cache.map (·.1)).Nodup :=
            (get_schema_scevo hgs).2 (by simp [make_memory])
          have e1 : SCEvo mS mV := add_vals_scevo _ _ hvv
          have e2 : SCEvo mV mA := SCEvo_of_eq (get_value_key_scache hav0)
          have e3 : SCEvo mA mB := add_elems_scevo _ _ hrest
          have e4 : SCEvo mB mf := SCEvo_of_eq (get_value_key_scache h)
          have evo : SCEvo mS mf :=
            SCEvo_trans e1 (SCEvo_trans e2 (SCEvo_trans e3 e4))
          exact ⟨⟨sk', evo.1.subset hmemS⟩, evo.2 hndS⟩

/-! ## A sequence of `add_value` calls on one memory -/

/-- Run `add_value` over a list of inputs, threading the memory and
collecting the returned keys (models "any sequence of add_value calls"). -/
def add_value_seq (m : Memory) : List JsonValue → List Str × Memory
  | [] => ([], m)
  | o :: os =>
    let (k, m1) := add_value m o
    let (ks, m2) := add_value_seq m1 os
    (k :: ks, m2)

/-- Every key a call sequence returns is the empty null key or a valid
index into the final store. -/
theorem add_value_seq_weak : ∀ (os : List JsonValue) (m : Memory), WInv m →
    m.store.length + (os.map size).sum ≤ U64 →
    ∀ {ks : List Str} {m' : Memory}, add_value_seq m os = (ks, m') →
    WInv m' ∧ m.store <+: m'.store ∧
    m'.store.length ≤ m.store.length + (os.map size).sum ∧
    ∀ k ∈ ks, k = [] ∨
      ∃ i, i < m'.store.length ∧ i < U64 ∧ k = int_to_s i := by
  intro os
  induction os with
  | nil =>
    intro m hW hroom ks m' h
    simp only [add_value_seq, Prod.mk.injEq] at h
    obtain ⟨rfl, rfl⟩ := h
    exact ⟨hW, List.prefix_refl _, by simp, by simp⟩
  | cons o os ih =>
    intro m hW hroom ks m' h
    rw [List.map_cons, List.sum_cons] at hroom
    simp only [add_value_seq] at h
    cases hav : add_value m o with
    | mk k1 m1 =>
      rw [hav] at h
      cases hrest : add_value_seq m1 os with
      | mk ks2 m2 =>
        rw [hrest] at h
        simp only [Prod.mk.injEq] at h
        obtain ⟨rfl, rfl⟩ := h
        obtain ⟨hW1, hpre1, hlen1, hk1⟩ :=
          add_value_weak (size o + 1) o m (by omega) hW (by omega) hav
        obtain ⟨hW2, hpre2, hlen2, hks2⟩ := ih m1 hW1 (by omega) hrest
        refine ⟨hW2, hpre1.trans hpre2,
          by rw [List.map_cons, List.sum_cons]; omega, ?_⟩
        intro k hk
        rcases List.mem_cons.mp hk with rfl | hk
        · rcases hk1 with rfl | ⟨i, hi, hiU, rfl⟩
          · exact Or.inl rfl
          · exact Or.inr ⟨i, by have := hpre2.length_le; omega, hiU, rfl⟩
        · exact hks2 k hk


/-- Faithfulness of the first-order `intern_str_arr`: it computes exactly
`add_value` on the corresponding array-of-strings value, as the source's
`get_schema` calls it. -/
theorem add_value_str_arr (m : Memory) (ks : List Str) :
    intern_str_arr m ks = add_value m (.arr (ks.map .str)) := by
  have hgo : ∀ (l : List Str) (m1 : Memory),
      intern_str_arr.go m1 l = add_elems m1 (l.map .str) := by
    intro l
    induction l with
    | nil =>
      intro m1
      rfl
    | cons k rest ih =>
      intro m1
      cases hg : get_value_key m1 (encode_str k) with
      | mk key mA =>
        cases hr : intern_str_arr.go mA rest with
        | mk acc mB =>
          have h1 : intern_str_arr.go m1 (k :: rest)
              = ('|' :: key ++ acc, mB) := by
            simp only [intern_str_arr.go, hg, hr]
          have h2 : add_elems m1 (JsonValue.str k :: rest.map .str)
              = ('|' :: key ++ acc, mB) := by
            simp only [add_elems]
            rw [if_neg (by simp),
              show add_value m1 (.str k) = get_value_key m1 (encode_str k)
                from rfl]
            simp only [hg, ← ih mA, hr]
          rw [List.map_cons, h1, h2]
  have h0 : intern_str_arr m ks =
      get_value_key (intern_str_arr.go m ks).2
        (if 'a' :: (intern_str_arr.go m ks).1 = ['a'] then ['a','|']
         else 'a' :: (intern_str_arr.go m ks).1) := rfl
  have h1 : add_value m (.arr (ks.map .str)) =
      get_value_key (add_elems m (ks.map .str)).2
        (if 'a' :: (add_elems m (ks.map .str)).1 = ['a'] then ['a','|']
         else 'a' :: (add_elems m (ks.map .str)).1) := rfl
  rw [h0, h1, hgo ks m]

/-! ## Claim theorems

One theorem per claim of the specification, with closed witnesses for the
hypothesis-bearing ones and closed counterexamples for the corrected
ones. -/

/-- Spec-side key value: radix-62 decode with unbounded integers — the
"decoded index" of the invalid-key claim's wording, without the source's
wrapping `usize` arithmetic.  Used only to state the counterexample. -/
def s_to_int_ideal (s : Str) : Option Nat :=
  go s.reverse 0 1
where
  go : List Char → Nat → Nat → Option Nat
    | [], acc, _ => some acc
    | c :: cs, acc, pow =>
      match charIdx? c with
      | none => none
      | some idx => go cs (acc + idx * pow) (pow * 62)

/-- C1: the round-trip `decompress (compress v)` returns `v` on the
amended fragment: integer numbers of magnitude at most `2 ^ 53`, no
symbolic floats, and object property names that are distinct and free of
`','`, for inputs whose node count fits the `usize` key space.  (As
stated, for all trees, the claim fails: see `C1_counterexample`.) -/
theorem C1_round_trip (v : JsonValue) (hG : Good v) (hroom : size v ≤ U64) :
    decompress (compress v) = .ok v :=
  compress_decompress v hG hroom

/-- Witness for C1 at a concrete nested value. -/
theorem C1_round_trip_witness :
    decompress (compress (JsonValue.obj [(['a'], .num 1),
      (['b'], .arr [.str ['x'], .null, .bool true])])) =
    .ok (JsonValue.obj [(['a'], .num 1),
      (['b'], .arr [.str ['x'], .null, .bool true])]) := by
  apply C1_round_trip
  · refine Good.obj _ (by decide) (by decide) ?_
    intro v hv
    simp only [List.map_cons, List.map_nil, List.mem_cons,
      List.not_mem_nil, or_false] at hv
    rcases hv with rfl | rfl
    · exact Good.num 1 (by decide)
    · refine Good.arr _ ?_
      intro x hx
      simp only [List.mem_cons, List.not_mem_nil, or_false] at hx
      rcases hx with rfl | rfl | rfl
      · exact Good.str ['x']
      · exact Good.null
      · exact Good.bool true
  · decide

set_option maxRecDepth 40000 in
/-- Counterexample to C1 as stated: the key sets `["a","b"]` and
`["a,b"]` join to the same schema-cache string `"a,b"`, so the second
object is decoded with the first object's schema and the round-trip
fails. -/
theorem C1_counterexample :
    decompress (compress (JsonValue.arr
      [.obj [(['a'], .num 1), (['b'], .num 2)],
       .obj [(['a',',','b'], .num 3)]])) ≠
    .ok (JsonValue.arr
      [.obj [(['a'], .num 1), (['b'], .num 2)],
       .obj [(['a',',','b'], .num 3)]]) := by
  decide

/-- C2: the key codec is a bijection onto its image on the `usize`
domain: decoding inverts encoding, encoding is injective, and the seven
pinned fixed points hold. -/
theorem C2_key_codec :
    (∀ i : Nat, i < U64 → s_to_int? (int_to_s i) = some i) ∧
    (∀ i : Nat, i < U64 → ∀ j : Nat, j < U64 → int_to_s i = int_to_s j →
      i = j) ∧
    int_to_s 0 = ['0'] ∧ int_to_s 9 = ['9'] ∧ int_to_s 10 = ['A'] ∧
    int_to_s 35 = ['Z'] ∧ int_to_s 36 = ['a'] ∧ int_to_s 61 = ['z'] ∧
    int_to_s 62 = ['1','0'] :=
  ⟨fun i hi => s_to_int_int_to_s i hi,
   fun i hi j hj h => int_to_s_inj_usize i j hi hj h,
   by decide, by decide, by decide, by decide, by decide, by decide,
   by decide⟩

/-- C3: decoding inverts string escaping for every string (also for
strings that already start with the escape tag `"s|"`), and the escape
prefix is prepended exactly when the string starts with one of the six
reserved tags, the string passing through unchanged otherwise. -/
theorem C3_string_escape :
    (∀ s : Str, decode_str (encode_str s) = s) ∧
    (∀ s : Str, (reservedTags.any (·.isPrefixOf s)) = true →
      encode_str s = 's' :: '|' :: s) ∧
    (∀ s : Str, (reservedTags.any (·.isPrefixOf s)) = false →
      encode_str s = s) :=
  ⟨decode_str_encode_str,
   fun s h => by rw [encode_str, if_pos h],
   fun s h => by rw [encode_str, if_neg (by rw [h]; exact Bool.false_ne_true)]⟩

/-- C4: interning the same encoded string twice returns the same key both
times, and the second call leaves the store untouched. -/
theorem C4_dedup (m : Memory) (s : Str) :
    (get_value_key (get_value_key m s).2 s).1 = (get_value_key m s).1 ∧
    (get_value_key (get_value_key m s).2 s).2.store.length
      = (get_value_key m s).2.store.length := by
  unfold get_value_key
  cases hl : m.value_cache.lookup s with
  | some ck =>
    simp [hl]
  | none =>
    simp [hl, List.lookup_cons]

/-- C5: compressing an array of objects that all carry the key list `ks`
registers exactly one schema-cache entry for `ks`, and that entry points
at an array-of-strings value in the extracted value list that decodes to
the key list — one schema entry regardless of the number of objects. -/
theorem C5_schema_sharing (kv00 : Str × JsonValue)
    (kvr0 : List (Str × JsonValue)) (rest : List (List (Str × JsonValue)))
    (ks : List Str) (hks0 : (kv00 :: kvr0).map (·.1) = ks)
    (hrest : ∀ kvs ∈ rest, kvs.map (·.1) = ks)
    (hG : Good (.arr (.obj (kv00 :: kvr0) :: rest.map .obj)))
    (hroom : size (.arr (.obj (kv00 :: kvr0) :: rest.map .obj)) ≤ U64) :
    ∀ {k : Str} {mf : Memory},
    add_value make_memory (.arr (.obj (kv00 :: kvr0) :: rest.map .obj))
      = (k, mf) →
    mf.schema_cache.countP (fun p => decide (p.1 = joinC ',' ks)) = 1 ∧
    ∃ i, i < (mem_to_values mf).length ∧
      decodeF ((mem_to_values mf).length + 2) (mem_to_values mf)
        (int_to_s i) = .ok (.arr (ks.map .str)) := by
  intro k mf hav
  obtain ⟨⟨sk, hmem⟩, hnd⟩ := compress_first_obj_schema hav
  rw [hks0] at hmem
  have hInvA := add_value_sound
    (size (.arr (.obj (kv00 :: kvr0) :: rest.map .obj)) + 1) _ make_memory
    (by omega) Inv_make hG (by show 0 + _ ≤ U64; omega)
  rw [hav] at hInvA
  obtain ⟨hInv, -, hlenf, -, -⟩ := hInvA
  have hInvf : Inv mf := hInv
  have hlenf2 : mf.store.length
      ≤ 0 + size (.arr (.obj (kv00 :: kvr0) :: rest.map .obj)) := hlenf
  refine ⟨countP_fst_eq_one hnd ⟨sk, hmem⟩, ?_⟩
  obtain ⟨ks2, i, hksc2, hne2, hj, hkey, hi, hdec⟩ := hInvf.sc _ hmem
  have hksfacts : (∀ x ∈ ks, ',' ∉ x) ∧ ks ≠ [] := by
    cases hG with
    | arr _ hxs =>
      have hobj := hxs (.obj (kv00 :: kvr0)) (by simp)
      cases hobj with
      | obj _ hnd0 hcomma0 hvals0 =>
        exact ⟨hks0 ▸ hcomma0, by rw [← hks0]; simp⟩
  have hkseq : ks2 = ks :=
    joinC_inj ',' ks2 ks hne2 hksfacts.2 hksc2 hksfacts.1 hj.symm
  subst hkseq
  refine ⟨i, hi, ?_⟩
  have hiU : i < U64 := by omega
  have hfin := hdec mf.store (mf.store.length + 2) (List.prefix_refl _)
    (by rw [hkey, keyFuel_int_to_s hiU]; omega)
  rw [hkey] at hfin
  exact hfin

/-- Witness for C5: two objects sharing the key list `["a"]`. -/
theorem C5_schema_sharing_witness :
    (add_value make_memory (JsonValue.arr [.obj [(['a'], .num 1)],
        .obj [(['a'], .num 2)]])).2.schema_cache.countP
      (fun p => decide (p.1 = joinC ',' [['a']])) = 1 ∧
    ∃ i, i < (mem_to_values (add_value make_memory
        (JsonValue.arr [.obj [(['a'], .num 1)],
          .obj [(['a'], .num 2)]])).2).length ∧
      decodeF ((mem_to_values (add_value make_memory
          (JsonValue.arr [.obj [(['a'], .num 1)],
            .obj [(['a'], .num 2)]])).2).length + 2)
        (mem_to_values (add_value make_memory
          (JsonValue.arr [.obj [(['a'], .num 1)],
            .obj [(['a'], .num 2)]])).2)
        (int_to_s i) = .ok (.arr ([['a']].map .str)) := by
  have hG : Good (JsonValue.arr [.obj [(['a'], JsonValue.num 1)],
      .obj [(['a'], JsonValue.num 2)]]) := by
    refine Good.arr _ ?_
    intro x hx
    simp only [List.mem_cons, List.not_mem_nil, or_false] at hx
    rcases hx with rfl | rfl
    · refine Good.obj _ (by decide) (by decide) ?_
      intro v hv
      simp only [List.map_cons, List.map_nil, List.mem_singleton] at hv
      subst hv
      exact Good.num 1 (by decide)
    · refine Good.obj _ (by decide) (by decide) ?_
      intro v hv
      simp only [List.map_cons, List.map_nil, List.mem_singleton] at hv
      subst hv
      exact Good.num 2 (by decide)
  exact C5_schema_sharing (['a'], JsonValue.num 1) [] [[(['a'],
    JsonValue.num 2)]] [['a']] rfl (by decide) hG (by decide) rfl

/-- C6: after any sequence of `add_value` calls on a fresh memory (whose
total node count fits the `usize` key space), every key the calls
returned is the empty null sentinel or decodes, with the source's key
arithmetic, to a valid index into the extracted value list. -/
theorem C6_key_validity (os : List JsonValue)
    (hroom : (os.map size).sum ≤ U64) :
    ∀ k ∈ (add_value_seq make_memory os).1,
      k = [] ∨ ∃ i, s_to_int? k = some i ∧
        i < (mem_to_values (add_value_seq make_memory os).2).length := by
  intro k hk
  cases hseq : add_value_seq make_memory os with
  | mk ks mf =>
    rw [hseq] at hk
    obtain ⟨-, -, -, hkey⟩ := add_value_seq_weak os make_memory WInv_make
      (by show 0 + _ ≤ U64; omega) hseq
    rcases hkey k hk with rfl | ⟨i, hi, hiU, rfl⟩
    · exact Or.inl rfl
    · exact Or.inr ⟨i, s_to_int_int_to_s i hiU, hi⟩

/-- Witness for C6: the first key returned for `[1, ["a"]]` is `"0"` and
indexes into the extracted store. -/
theorem C6_key_validity_witness :
    ['0'] = ([] : Str) ∨ ∃ i, s_to_int? ['0'] = some i ∧
      i < (mem_to_values
        (add_value_seq make_memory [.num 1, .arr [.str ['a']]]).2).length :=
  C6_key_validity [.num 1, .arr [.str ['a']]] (by decide) ['0'] (by decide)

/-- C7 (amended): integer numbers round-trip exactly — and as integers,
through the decoder's integer-first parse — when their magnitude is at
most `2 ^ 53`, the bound under which the `f64` conversion inside the
number encoder is exact.  (As stated, for all magnitudes, the claim
fails: see `C7_counterexample`.) -/
theorem C7_number_fidelity (n : Int) (hn : n.natAbs ≤ 2 ^ 53) :
    decompress (compress (.num n)) = .ok (.num n) :=
  compress_decompress (.num n) (Good.num n hn)
    (by rw [show size (JsonValue.num n) = 1 from rfl]; decide)

/-- Witness for C7 at `-42`. -/
theorem C7_number_fidelity_witness :
    decompress (compress (.num (-42))) = .ok (.num (-42)) :=
  C7_number_fidelity (-42) (by decide)

set_option maxRecDepth 40000 in
/-- Counterexample to C7 as stated: `2 ^ 53 + 1` is not representable in
`f64`, so the decimal text the encoder emits is already rounded and the
value fails to round-trip. -/
theorem C7_counterexample :
    decompress (compress (.num (2 ^ 53 + 1))) ≠ .ok (.num (2 ^ 53 + 1)) := by
  decide

/-- C8: the boolean codec with its asymmetric fallback: the two canonical
forms, `false` on the empty string, `true` on every other non-empty
string, and decoding inverts encoding on both booleans. -/
theorem C8_bool_codec :
    encode_bool true = ['b','|','T'] ∧ encode_bool false = ['b','|','F'] ∧
    decode_bool ['b','|','T'] = true ∧ decode_bool ['b','|','F'] = false ∧
    decode_bool [] = false ∧
    (∀ s : Str, s ≠ [] → s ≠ ['b','|','F'] → decode_bool s = true) ∧
    (∀ b : Bool, decode_bool (encode_bool b) = b) := by
  refine ⟨rfl, rfl, rfl, rfl, rfl, ?_, decode_bool_encode_bool⟩
  intro s hne hnf
  unfold decode_bool
  by_cases hT : s = ['b','|','T']
  · rw [if_pos hT]
  · rw [if_neg hT, if_neg hnf]
    simp [hne]

/-- C9 (amended): decoding a key other than `""`/`"_"` fails — and the
failure is surfaced as an error, never a value — whenever the key has a
character outside the radix-62 alphabet or its index under the source's
wrapping `usize` arithmetic reaches past the value list.  (As stated,
with the ideal unwrapped index, the claim fails: see
`C9_counterexample`.) -/
theorem C9_invalid_key (f : Nat) (values : List Str) (key : Str)
    (hne : key ≠ []) (hnp : key ≠ ['_'])
    (hbad : s_to_int? key = none ∨
      ∃ i, s_to_int? key = some i ∧ values.length ≤ i) :
    ∃ e, decodeF f values key = .error e := by
  match f with
  | 0 => exact ⟨.fuel, rfl⟩
  | f + 1 =>
    rw [show decodeF (f + 1) values key =
      (if key = [] ∨ key = ['_'] then .ok .null
       else
        match s_to_int? key with
        | none => .error .invalidKey
        | some id =>
          match values.get? id with
          | none => .error .indexOOB
          | some v_str =>
            if ['b','|'].isPrefixOf v_str then .ok (.bool (decode_bool v_str))
            else if ['o','|'].isPrefixOf v_str then
              if v_str = ['o','|'] then .ok (.obj [])
              else
                match splitC '|' v_str with
                | _ :: key_id :: rest => do
                  let kv ← decodeF f values key_id
                  let keys ← objKeys kv
                  let pairs ← objParts (decodeF f values) rest keys
                  .ok (.obj pairs)
                | _ => .error .invalidKeys
            else if ['N','|'].isPrefixOf v_str then
              if v_str = ['N','|','+'] ∨ v_str = ['N','|','-'] ∨
                v_str = ['N','|','0']
              then .ok .null else .error .invalidSpecial
            else if ['n','|'].isPrefixOf v_str then
              let ns := v_str.drop 2
              match (if hasMarker ns then none else parseI64? ns) with
              | some i => .ok (.num i)
              | none =>
                match (if hasMarker ns then none else parseU64? ns) with
                | some u => .ok (.num (u : Int))
                | none =>
                  if validF64Text ns then .ok (.floatNum ns)
                  else .error .invalidNumber
            else if ['a','|'].isPrefixOf v_str then
              if v_str = ['a','|'] then .ok (.arr [])
              else
                match splitC '|' v_str with
                | _ :: parts => do
                  let vals ← (parts.mapM (decodeF f values))
                  .ok (.arr vals)
                | _ => .error .invalidKeys
            else .ok (.str (decode_str v_str))) from rfl]
    rw [if_neg (by push_neg; exact ⟨hne, hnp⟩)]
    rcases hbad with hb | ⟨i, hi, hlen⟩
    · rw [hb]
      exact ⟨.invalidKey, rfl⟩
    · rw [hi]
      refine ⟨.indexOOB, ?_⟩
      have hg : values.get? i = none := List.get?_eq_none.mpr hlen
      simp only [hg]

/-- Witness for C9: a key with a character outside the alphabet errors. -/
theorem C9_invalid_key_witness :
    ∃ e, decodeF 1 [['a','|']] ['!'] = .error e :=
  C9_invalid_key 1 [['a','|']] ['!'] (by decide) (by decide)
    (Or.inl (by decide))

set_option maxRecDepth 40000 in
/-- Counterexample to C9 as stated: the key encoding `2 ^ 64` has ideal
radix-62 value `2 ^ 64`, far past the one-element value list, yet the
wrapping `usize` accumulation reduces it to index `0` and the decode
silently returns a value. -/
theorem C9_counterexample :
    s_to_int_ideal (int_to_s (2 ^ 64)) = some (2 ^ 64) ∧
    ([['b','|','T']] : List Str).length ≤ 2 ^ 64 ∧
    int_to_s (2 ^ 64) ≠ [] ∧ int_to_s (2 ^ 64) ≠ ['_'] ∧
    decodeF 2 [['b','|','T']] (int_to_s (2 ^ 64)) = .ok (.bool true) := by
  refine ⟨by decide, by decide, by decide, by decide, by decide⟩

/-- C10: compression is deterministic: two runs on equal inputs return
element-wise equal value lists and equal root keys. -/
theorem C10_deterministic (v w : JsonValue) (h : v = w) :
    (compress v).1 = (compress w).1 ∧ (compress v).2 = (compress w).2 := by
  subst h
  exact ⟨rfl, rfl⟩

/-- Witness for C10 at a concrete value. -/
theorem C10_deterministic_witness :
    (compress (.str ['h','i'])).1 = (compress (.str ['h','i'])).1 ∧
    (compress (.str ['h','i'])).2 = (compress (.str ['h','i'])).2 :=
  C10_deterministic (.str ['h','i']) (.str ['h','i']) rfl

end CompressJson
